import Mathlib

/-!
Verification of the resource-monitor core of this repository
(`src/resource_monitor.rs`): sampling, process aggregation, exponential
smoothing, history buffers and the two text graph renderers.

Modelling conventions:
* Rust `f32` scalars are modelled as exact rationals (`ℚ`).  Where the
  special values are observable we use the dedicated domain `F32` below
  (with `nan` and the two infinities), and `WithBot ℚ` for the
  `f32::NEG_INFINITY` seed of the `cpu_max` fold.  Floating-point rounding
  error is idealized away; every concrete sample point used in a theorem
  below was checked to evaluate identically under `f32` semantics.
* Machine integers (`u64`, `usize`) are `ℕ`; `isize` is `ℤ`.
* The flat pixel buffer `Vec<u8>` of `braille_graph` is modelled as a total
  function `ℕ → Bool` from flat indices; the in-bounds discipline of all
  reads and writes is proved separately (claim about safety).
-/

set_option maxHeartbeats 1000000
set_option maxRecDepth 8000

namespace Eos

/-- Rounding as in `f32::round`: nearest integer, ties away from zero. -/
def rround (q : ℚ) : ℤ := if 0 ≤ q then ⌊q + 1 / 2⌋ else -⌊1 / 2 - q⌋

/-- Model of the `f32` domain in which the special values are observable.
NaN payloads and signed zeros are not distinguished; finite values are
exact rationals. -/
inductive F32 where
  | fin : ℚ → F32
  | nan : F32
  | inf : F32
  | ninf : F32
deriving DecidableEq

/-- Rust `f32::clamp(lo, hi)` for finite bounds `lo ≤ hi`: NaN propagates,
`-∞` clamps to `lo`, `+∞` to `hi`, and otherwise
`if x < lo then lo else if x > hi then hi else x`. -/
def F32.clamp (v : F32) (lo hi : ℚ) : F32 :=
  match v with
  | fin q => fin (if q < lo then lo else if hi < q then hi else q)
  | nan => nan
  | inf => fin hi
  | ninf => fin lo

/-- Multiplication `c * v` of an `f32` by a positive finite rational
constant (idealized exact arithmetic on the finite values). -/
def F32.scale (c : ℚ) (v : F32) : F32 :=
  match v with
  | fin q => fin (c * q)
  | nan => nan
  | inf => inf
  | ninf => ninf

/-- Division `v / c` of an `f32` by a positive finite rational constant. -/
def F32.divC (c : ℚ) (v : F32) : F32 :=
  match v with
  | fin q => fin (q / c)
  | nan => nan
  | inf => inf
  | ninf => ninf

/-- Subtraction `1.0 - v` of an `f32` from one. -/
def F32.oneSub (v : F32) : F32 :=
  match v with
  | fin q => fin (1 - q)
  | nan => nan
  | inf => ninf
  | ninf => inf

/-- Rust `f32::round` on the modelled domain. -/
def F32.round (v : F32) : F32 :=
  match v with
  | fin q => fin ((rround q : ℤ) : ℚ)
  | x => x

/-- Rust `as usize` cast of an `f32` (the code applies it after `round`):
truncation toward zero, NaN and negative values to `0`, saturation at
`usize::MAX` for `+∞` (64-bit model). -/
def F32.toUsize (v : F32) : ℕ :=
  match v with
  | fin q => if q < 0 then 0 else ⌊q⌋.toNat
  | nan => 0
  | inf => 2 ^ 64 - 1
  | ninf => 0

/-- Rust `as isize` cast of an `f32` (the code applies it after `round`):
truncation toward zero, NaN to `0`, saturation at the bounds for the
infinities (64-bit model). -/
def F32.toIsize (v : F32) : ℤ :=
  match v with
  | fin q => if q < 0 then -⌊-q⌋ else ⌊q⌋
  | nan => 0
  | inf => 2 ^ 63 - 1
  | ninf => -(2 ^ 63)

/-- The module constant `GRAPH_CHAR_WIDTH = 28`. -/
def GRAPH_CHAR_WIDTH : ℕ := 28

/-- The nine intensity glyphs `BLOCK_GRAPH_GLYPHS` of the source. -/
def BLOCK_GRAPH_GLYPHS : List Char := [' ', '▁', '▂', '▃', '▄', '▅', '▆', '▇', '█']

/-- Glyph index computed by `ResourceMonitor::block_graph` for one sample:
`fract = 0.01 * v.clamp(0., 100.) * (BLOCK_GRAPH_GLYPHS.len() as f32)` and
then `(fract.round() as usize).clamp(0, BLOCK_GRAPH_GLYPHS.len() - 1)`.
The lower bound of the final `usize` clamp is a no-op on `ℕ`. -/
def blockIndex (v : F32) : ℕ :=
  let fract := F32.scale 9 (F32.scale (1 / 100) (v.clamp 0 100))
  min fract.round.toUsize 8

/-- Method `ResourceMonitor::block_graph` (lines 277–283): one glyph per
input sample. -/
def block_graph (data : List F32) : String :=
  ⟨data.map (fun v => BLOCK_GRAPH_GLYPHS.getD (blockIndex v) ' ')⟩

/-- The sample-to-index formula restated on plain rationals:
`round(clamp(v,0,100) / 100 * 9)` clamped to `[0,8]`.  Used to state the
amended form of the spec's block-glyph formula (which used factor 8). -/
def blockIndexNine (v : ℚ) : ℕ := min (rround (min (max v 0) 100 / 100 * 9)).toNat 8

theorem rround_intCast (n : ℤ) : rround (n : ℚ) = n := by
  unfold rround
  rcases le_or_lt 0 (n : ℚ) with h | h
  · rw [if_pos h, add_comm, Int.floor_add_int]
    norm_num
  · rw [if_neg (not_le.mpr h), sub_eq_add_neg, show (-(n : ℚ)) = ((-n : ℤ) : ℚ) by push_cast; ring,
      Int.floor_add_int]
    norm_num

theorem rround_nonneg {q : ℚ} (h : 0 ≤ q) : 0 ≤ rround q := by
  unfold rround
  rw [if_pos h]
  exact Int.le_floor.mpr (by push_cast; linarith)

theorem rround_le {q : ℚ} {b : ℤ} (h0 : 0 ≤ q) (h : q ≤ (b : ℚ)) : rround q ≤ b := by
  unfold rround
  rw [if_pos h0]
  have hlt : ⌊q + 1 / 2⌋ < b + 1 := Int.floor_lt.mpr (by push_cast; linarith)
  omega

theorem rround_mono {p q : ℚ} (h0 : 0 ≤ p) (h : p ≤ q) : rround p ≤ rround q := by
  unfold rround
  rw [if_pos h0, if_pos (h0.trans h)]
  exact Int.floor_le_floor (by linarith)

/-- On finite inputs the glyph index of `block_graph` agrees with the plain
formula `round(clamp(v,0,100) / 100 * 9)` clamped to `[0,8]`. -/
theorem blockIndex_fin (q : ℚ) : blockIndex (F32.fin q) = blockIndexNine q := by
  unfold blockIndex blockIndexNine F32.clamp F32.scale F32.round F32.toUsize
  simp only
  have harg : (9 : ℚ) * (1 / 100 * (if q < 0 then 0 else if 100 < q then 100 else q)) =
      min (max q 0) 100 / 100 * 9 := by
    rcases lt_or_le q 0 with h | h
    · rw [if_pos h, max_eq_right h.le, min_eq_left (by norm_num)]
      ring
    · rw [if_neg (not_lt.mpr h), max_eq_left h]
      rcases lt_or_le 100 q with h2 | h2
      · rw [if_pos h2, min_eq_right h2.le]
        ring
      · rw [if_neg (not_lt.mpr h2), min_eq_left h2]
        ring
  rw [harg]
  have hc0 : (0 : ℚ) ≤ min (max q 0) 100 / 100 * 9 := by
    have : (0 : ℚ) ≤ min (max q 0) 100 := le_min (le_max_right q 0) (by norm_num)
    positivity
  have hr0 : 0 ≤ rround (min (max q 0) 100 / 100 * 9) := rround_nonneg hc0
  rw [if_neg (not_lt.mpr (by exact_mod_cast hr0))]
  rw [Int.floor_intCast]

/-- The glyph index of `block_graph` never exceeds 8 (the glyph table has
nine entries), for every `f32` input including NaN, infinities and values
outside `[0,100]`. -/
theorem blockIndex_le_eight (v : F32) : blockIndex v ≤ 8 :=
  min_le_right _ 8

theorem blockIndex_zero : blockIndex (F32.fin 0) = 0 := by
  simp only [blockIndex, F32.clamp, F32.scale, F32.round, F32.toUsize]
  norm_num [rround]

theorem blockIndex_fifty : blockIndex (F32.fin 50) = 5 := by
  simp only [blockIndex, F32.clamp, F32.scale, F32.round, F32.toUsize]
  norm_num [rround]
  try omega

theorem blockIndex_hundred : blockIndex (F32.fin 100) = 8 := by
  simp only [blockIndex, F32.clamp, F32.scale, F32.round, F32.toUsize]
  norm_num [rround]

/-- Claim C1, counterexample: the block-glyph renderer does NOT map the
input `[0, 50, 100]` to glyph indices `[0, 4, 8]` (glyphs `' '`, `'▄'`,
`'█'`): the sample `50` is rendered as glyph index 5 (`'▅'`), because the
code multiplies by the glyph count 9, not by 8 as the spec's formula says,
before rounding. -/
theorem C1_counterexample :
    block_graph [F32.fin 0, F32.fin 50, F32.fin 100] ≠ " ▄█" := by
  simp only [block_graph, List.map, blockIndex_zero, blockIndex_fifty, blockIndex_hundred]
  decide

/-- Struct `CpuInfo`.  The field `cpu_max` lives in `WithBot ℚ` because the
code computes it by folding `f32::max` from the seed `f32::NEG_INFINITY`,
which is observable when the CPU list is empty (`⊥` models `-∞`). -/
structure CpuInfo where
  physical_cores : ℕ
  cpu_count : ℕ
  cpu_avg : ℚ
  cpu_max : WithBot ℚ
  cpu_freq : ℚ
deriving DecidableEq

/-- Struct `GpuInfo`: memory in bytes (`u64`), clock in MHz, power in
milliwatts, utilization in percent. -/
structure GpuInfo where
  mem_used : ℕ
  mem_total : ℕ
  clock : ℚ
  power : ℚ
  util : ℚ
deriving DecidableEq

/-- Derived `GpuInfo::default()`: every field zero. -/
def GpuInfo.default : GpuInfo := ⟨0, 0, 0, 0, 0⟩

/-- Struct `InterpolatedInfo` (all fields `f32`, so all default to 0). -/
structure InterpolatedInfo where
  cpu_avg : ℚ
  cpu_max : ℚ
  cpu_freq : ℚ
  cpu_avg_smooth : ℚ
  cpu_freq_smooth : ℚ
  cpu_max_smooth : ℚ
  gpu_clock : ℚ
  gpu_power : ℚ
  gpu_util : ℚ
deriving DecidableEq

/-- Derived `InterpolatedInfo::default()`: every field zero. -/
def InterpolatedInfo.default : InterpolatedInfo := ⟨0, 0, 0, 0, 0, 0, 0, 0, 0⟩

/-- Struct `ProcessInfo`.  The `OsString` name is modelled as a `String`;
the `f32` CPU usage is an `Option ℚ` so that NaN (`none`) is observable by
the comparison in `ProcessBy::compare`. -/
structure ProcessInfo where
  name : String
  cpu : Option ℚ
  mem : ℕ
  pid : ℕ
deriving DecidableEq

/-- Rust's three-way comparison on finite `f32` values: `Less`, `Equal` or
`Greater` by value. -/
def qcmp (x y : ℚ) : Ordering := if x < y then .lt else if x = y then .eq else .gt

/-- Rust's three-way comparison on `u64` values. -/
def ncmp (x y : ℕ) : Ordering := if x < y then .lt else if x = y then .eq else .gt

/-- Model of `f32::partial_cmp`: comparisons involving NaN (`none`) are
incomparable and yield `none`. -/
def fcmp (a b : Option ℚ) : Option Ordering :=
  match a, b with
  | some x, some y => some (qcmp x y)
  | _, _ => none

/-- Model of `f32::max`: a NaN (`none`) argument is ignored, matching the
IEEE `maxNum` behaviour Rust implements. -/
def fmax (a b : Option ℚ) : Option ℚ :=
  match a, b with
  | some x, some y => some (max x y)
  | some x, none => some x
  | none, b => b

/-- Enum `ProcessBy` selecting the process sort key. -/
inductive ProcessBy where
  | Cpu
  | Ram
deriving DecidableEq

/-- Method `ProcessBy::compare` (lines 83–90): descending comparison of the
selected field, with incomparable pairs (NaN) treated as equal via
`unwrap_or(Ordering::Equal)`.  For `Ram` the `u64` comparison never fails. -/
def ProcessBy.compare (s : ProcessBy) (a b : ProcessInfo) : Ordering :=
  match s with
  | .Cpu => (fcmp b.cpu a.cpu).getD .eq
  | .Ram => (some (ncmp b.mem a.mem)).getD .eq

/-- The map insertion of `processes.insert(...)`: replace the entry whose
key (name) matches, else add the new entry. -/
def hmInsert : List ProcessInfo → ProcessInfo → List ProcessInfo
  | [], v => [v]
  | q :: rest, v => if q.name = v.name then v :: rest else q :: hmInsert rest v

/-- The body of the aggregation loop of `update_processes` (lines 222–239):
look the process name up in the map; on a hit insert the merged record
(old name and pid, per-field max of cpu and memory), else insert the
record itself. -/
def insertProcess (m : List ProcessInfo) (pi : ProcessInfo) : List ProcessInfo :=
  match m.find? (fun q => q.name == pi.name) with
  | some pi_old => hmInsert m
      { name := pi_old.name, cpu := fmax pi.cpu pi_old.cpu,
        mem := max pi.mem pi_old.mem, pid := pi_old.pid }
  | none => m ++ [pi]

/-- The name-keyed aggregation map of `update_processes`, built from the
process table.  The `HashMap` is modelled as an association list keyed by
the `name` field (iteration order of the Rust map is unspecified). -/
def aggregate (table : List ProcessInfo) : List ProcessInfo :=
  table.foldl insertProcess []

/-- The boolean ordering `sorted_by` sorts with: `a` may precede `b` iff
the comparator does not say `Greater`. -/
def sortLe (k : ProcessBy) (a b : ProcessInfo) : Bool := k.compare a b != Ordering.gt

/-- Method `update_processes` (lines 212–244): aggregate the process
table by name, then stable-sort by the selected key (`sorted_by` collects
and applies a stable sort; modelled by `List.mergeSort`). -/
def update_processes (table : List ProcessInfo) (k : ProcessBy) : List ProcessInfo :=
  (aggregate table).mergeSort (sortLe k)

/-- Per-field maximum of the CPU values of all processes of name `s` in
the table (`f32::max` fold, `none` = NaN is the fold unit). -/
def groupCpu (l : List ProcessInfo) (s : String) : Option ℚ :=
  ((l.filter (fun p => p.name == s)).map (fun p => p.cpu)).foldr fmax none

/-- Per-field maximum of the memory values of all processes of name `s`
in the table. -/
def groupMem (l : List ProcessInfo) (s : String) : ℕ :=
  ((l.filter (fun p => p.name == s)).map (fun p => p.mem)).foldr max 0

/-- Errors of the NVML wrapper; the code only ever constructs
`NvmlError::NoData` itself, other library errors are lumped into `other`. -/
inductive NvmlError where
  | noData
  | other
deriving DecidableEq

/-- Result of `Device::memory_info`. -/
structure MemoryInfo where
  used : ℕ
  total : ℕ
deriving DecidableEq

/-- The NVML device handle: each query the code performs is fallible. -/
structure Device where
  memory_info : Except NvmlError MemoryInfo
  clock_info : Except NvmlError ℕ
  utilization_rates : Except NvmlError ℕ
  power_usage : Except NvmlError ℕ

/-- The NVML library handle; the code only queries device index 0. -/
structure Nvml where
  device_by_index : Except NvmlError Device

/-- Function `gpu_update` (lines 516–531): chain of fallible NVML queries;
any failure short-circuits, and an absent handle yields `NoData`. -/
def gpu_update (nv : Option Nvml) : Except NvmlError GpuInfo :=
  match nv with
  | some nv => do
      let device ← nv.device_by_index
      let mem ← device.memory_info
      let clock ← device.clock_info
      let utilization ← device.utilization_rates
      let power ← device.power_usage
      pure { mem_used := mem.used, mem_total := mem.total,
             clock := (clock : ℚ), power := (power : ℚ), util := (utilization : ℚ) }
  | none => .error .noData

/-- The fold computing `cpu_max` (lines 187–189): per-CPU usages folded
with `f32::max` from the seed `f32::NEG_INFINITY` (modelled as `⊥`). -/
def cpuMaxFold (usages : List ℚ) : WithBot ℚ :=
  usages.foldl (fun a b => max a (b : WithBot ℚ)) ⊥

/-- State of `ResourceMonitor` relevant to the claims.  The `sysinfo`
handle and the one-time identity strings (OS name, CPU brand, …) are
presentation-only and omitted; the per-tick readings they produce are
passed to `update_cpu_gpu_mem` as arguments instead. -/
structure Monitor where
  nv : Option Nvml
  cpu_info : CpuInfo
  gpu_info : GpuInfo
  smooth : InterpolatedInfo
  process_info : List ProcessInfo
  process_sort_by : ProcessBy
  ram_used : ℕ
  cpu_avgs : List ℚ
  gpu_avgs : List ℚ

/-- Constructor `ResourceMonitor::new()` (lines 122–174): zeroed metrics,
zeroed GPU snapshot, zeroed history buffers of capacity 28; the core
counts read from `sysinfo` are parameters. -/
def new_monitor (nv : Option Nvml) (physical_cores cpu_count : ℕ) : Monitor :=
  { nv := nv
    cpu_info := { physical_cores := physical_cores, cpu_count := cpu_count,
                  cpu_avg := 0, cpu_max := ((0 : ℚ) : WithBot ℚ), cpu_freq := 0 }
    gpu_info := GpuInfo.default
    smooth := InterpolatedInfo.default
    process_info := []
    process_sort_by := .Cpu
    ram_used := 0
    cpu_avgs := List.replicate GRAPH_CHAR_WIDTH 0
    gpu_avgs := List.replicate GRAPH_CHAR_WIDTH 0 }

/-- Rotation `arr.rotate_right(1)` of a history array: the last element
moves to the front. -/
def rotateRight1 (l : List ℚ) : List ℚ :=
  match l.getLast? with
  | some x => x :: l.dropLast
  | none => []

/-- History push (lines 204–205 resp. 207–208): `rotate_right(1)` followed
by overwriting index 0 with the new sample. -/
def pushSample (l : List ℚ) (v : ℚ) : List ℚ := (rotateRight1 l).set 0 v

/-- Method `update_cpu_gpu_mem` (lines 180–210).  The per-tick readings
obtained from `sysinfo` (global average utilization, per-logical-CPU
usages, per-CPU frequencies, used RAM) are passed as arguments; the GPU
query runs against the stored NVML handle exactly as in the source. -/
def update_cpu_gpu_mem (m : Monitor) (cpu_avg : ℚ) (usages : List ℚ)
    (freqs : List ℕ) (ram : ℕ) : Monitor :=
  let cpu_info : CpuInfo :=
    { m.cpu_info with
      cpu_avg := cpu_avg
      cpu_max := cpuMaxFold usages
      cpu_freq := (freqs.sum : ℚ) / (m.cpu_info.cpu_count : ℚ) }
  let gpudat := (gpu_update m.nv).toOption
  { m with
    cpu_info := cpu_info
    ram_used := ram
    gpu_info := gpudat.getD m.gpu_info
    cpu_avgs := pushSample m.cpu_avgs cpu_avg
    gpu_avgs := match gpudat with
      | some g => pushSample m.gpu_avgs g.util
      | none => m.gpu_avgs }

/-- One data-refresh tick's worth of raw readings. -/
structure TickInput where
  cpu_avg : ℚ
  usages : List ℚ
  freqs : List ℕ
  ram : ℕ

/-- Folding a stream of data-refresh ticks through `update_cpu_gpu_mem`. -/
def runTicks (m : Monitor) : List TickInput → Monitor
  | [] => m
  | t :: rest => runTicks (update_cpu_gpu_mem m t.cpu_avg t.usages t.freqs t.ram) rest

theorem le_foldl_max (l : List ℚ) : ∀ acc : WithBot ℚ,
    acc ≤ l.foldl (fun a b => max a (b : WithBot ℚ)) acc := by
  induction l with
  | nil => intro acc; exact le_rfl
  | cons x xs ih => intro acc; exact (le_max_left acc (x : WithBot ℚ)).trans (ih _)

theorem mem_le_foldl_max (l : List ℚ) : ∀ (acc : WithBot ℚ) (x : ℚ), x ∈ l →
    (x : WithBot ℚ) ≤ l.foldl (fun a b => max a (b : WithBot ℚ)) acc := by
  induction l with
  | nil => intro _ x hx; cases hx
  | cons a as ih =>
    intro acc x hx
    rcases List.mem_cons.mp hx with h | h
    · subst h
      exact (le_max_right acc (x : WithBot ℚ)).trans (le_foldl_max as _)
    · exact ih _ x h

theorem foldl_max_cases (l : List ℚ) : ∀ acc : WithBot ℚ,
    l.foldl (fun a b => max a (b : WithBot ℚ)) acc = acc ∨
    ∃ m ∈ l, l.foldl (fun a b => max a (b : WithBot ℚ)) acc = (m : WithBot ℚ) := by
  induction l with
  | nil => intro acc; exact Or.inl rfl
  | cons a as ih =>
    intro acc
    rcases ih (max acc (a : WithBot ℚ)) with h | ⟨m, hm, h⟩
    · rcases max_choice acc (a : WithBot ℚ) with hc | hc
      · exact Or.inl (h.trans hc)
      · exact Or.inr ⟨a, List.mem_cons_self a as, h.trans hc⟩
    · exact Or.inr ⟨m, List.mem_cons_of_mem a hm, h⟩

theorem mem_le_cpuMaxFold {l : List ℚ} {x : ℚ} (hx : x ∈ l) :
    (x : WithBot ℚ) ≤ cpuMaxFold l :=
  mem_le_foldl_max l ⊥ x hx

theorem cpuMaxFold_attained {l : List ℚ} (h : l ≠ []) :
    ∃ m ∈ l, cpuMaxFold l = (m : WithBot ℚ) := by
  rcases foldl_max_cases l ⊥ with hc | hc
  · exfalso
    obtain ⟨a, as, rfl⟩ := List.exists_cons_of_ne_nil h
    have := mem_le_cpuMaxFold (List.mem_cons_self a as)
    rw [show cpuMaxFold (a :: as) = ⊥ from hc] at this
    exact WithBot.not_coe_le_bot a this
  · exact hc

theorem cpuMaxFold_example : cpuMaxFold [10, 55, 30] = ((55 : ℚ) : WithBot ℚ) := by
  have h1 : max (10 : ℚ) 55 = 55 := max_eq_right (by norm_num)
  have h2 : max (55 : ℚ) 30 = 55 := max_eq_left (by norm_num)
  simp only [cpuMaxFold, List.foldl]
  rw [max_eq_right bot_le, ← WithBot.coe_max, h1, ← WithBot.coe_max, h2]

/-- Claim C2, counterexample: on a data-refresh tick that observes an
empty list of logical CPUs, `cpu_max` becomes the fold seed
`f32::NEG_INFINITY` (modelled as `⊥`), which is not 0 as the claim
requires. -/
theorem C2_counterexample :
    (update_cpu_gpu_mem (new_monitor none 4 8) 0 [] [] 0).cpu_info.cpu_max = ⊥ ∧
    (⊥ : WithBot ℚ) ≠ ((0 : ℚ) : WithBot ℚ) :=
  ⟨rfl, WithBot.bot_ne_coe⟩

/-- Claim C2 (amended): after each data-refresh tick, `cpu_max` is exactly
the `f32::max`-fold over the per-logical-CPU utilizations observed that
tick; for a nonempty CPU list this is their maximum (an upper bound
attained at a member; e.g. [10,55,30] gives 55), while for an empty CPU
list it is the fold seed `-∞` (`⊥`), not 0. -/
theorem C2_cpu_max :
    (∀ (m : Monitor) (a : ℚ) (us : List ℚ) (fs : List ℕ) (r : ℕ),
      (update_cpu_gpu_mem m a us fs r).cpu_info.cpu_max = cpuMaxFold us) ∧
    (∀ us : List ℚ, (∀ x ∈ us, (x : WithBot ℚ) ≤ cpuMaxFold us) ∧
      (us ≠ [] → ∃ x ∈ us, cpuMaxFold us = (x : WithBot ℚ))) ∧
    cpuMaxFold [10, 55, 30] = ((55 : ℚ) : WithBot ℚ) ∧
    cpuMaxFold [] = ⊥ :=
  ⟨fun _ _ _ _ _ => rfl,
   fun _ => ⟨fun _ hx => mem_le_cpuMaxFold hx, cpuMaxFold_attained⟩,
   cpuMaxFold_example, rfl⟩

/-- Claim C2, witness of the amended theorem at the tick reading
`[10, 55, 30]`. -/
theorem C2_witness :
    (update_cpu_gpu_mem (new_monitor none 4 3) 20 [10, 55, 30] [] 0).cpu_info.cpu_max
      = cpuMaxFold [10, 55, 30] ∧
    ((10 : ℚ) : WithBot ℚ) ≤ cpuMaxFold [10, 55, 30] ∧
    (∃ x ∈ ([10, 55, 30] : List ℚ), cpuMaxFold [10, 55, 30] = (x : WithBot ℚ)) :=
  ⟨C2_cpu_max.1 (new_monitor none 4 3) 20 [10, 55, 30] [] 0,
   (C2_cpu_max.2.1 [10, 55, 30]).1 10 (by simp),
   (C2_cpu_max.2.1 [10, 55, 30]).2 (by simp)⟩

theorem rotateRight1_of_ne_nil {l : List ℚ} (h : l ≠ []) :
    rotateRight1 l = l.getLast h :: l.dropLast := by
  unfold rotateRight1
  rw [List.getLast?_eq_getLast l h]

theorem pushSample_eq_cons {l : List ℚ} (h : l ≠ []) (v : ℚ) :
    pushSample l v = v :: l.dropLast := by
  unfold pushSample
  rw [rotateRight1_of_ne_nil h]
  rfl

theorem pushSample_ne_nil {l : List ℚ} (h : l ≠ []) (v : ℚ) :
    pushSample l v ≠ [] := by
  rw [pushSample_eq_cons h]
  exact List.cons_ne_nil v l.dropLast

theorem length_pushSample {l : List ℚ} (h : l ≠ []) (v : ℚ) :
    (pushSample l v).length = l.length := by
  rw [pushSample_eq_cons h]
  simp only [List.length_cons, List.length_dropLast]
  have : 1 ≤ l.length := List.length_pos.mpr h
  omega

theorem foldl_pushSample (vs : List ℚ) : ∀ init : List ℚ, init ≠ [] →
    vs.foldl pushSample init = (vs.reverse ++ init).take init.length := by
  induction vs with
  | nil =>
    intro init _
    simp [List.take_length]
  | cons v vs ih =>
    intro init hinit
    have hlen1 : 1 ≤ init.length := List.length_pos.mpr hinit
    have hstep : pushSample init v = v :: init.dropLast := pushSample_eq_cons hinit v
    rw [List.foldl_cons, hstep, ih (v :: init.dropLast) (List.cons_ne_nil _ _)]
    have hlen2 : (v :: init.dropLast).length = init.length := by
      simp only [List.length_cons, List.length_dropLast]
      omega
    rw [hlen2]
    rw [show vs.reverse ++ v :: init.dropLast = (vs.reverse ++ [v]) ++ init.dropLast by
      simp]
    rw [show (v :: vs).reverse ++ init = (vs.reverse ++ [v]) ++ init by simp]
    conv_lhs => rw [List.take_append_eq_append_take]
    conv_rhs => rw [List.take_append_eq_append_take]
    congr 1
    rw [List.dropLast_eq_take, List.take_take]
    congr 1
    simp only [List.length_append, List.length_reverse, List.length_cons, List.length_nil]
    omega

/-- After pushing `N+1` samples into a capacity-`N` buffer, the buffer is
exactly the `N` most recent samples, newest first. -/
theorem foldl_pushSample_capacity {N : ℕ} {init vs : List ℚ} (hN : 1 ≤ N)
    (hinit : init.length = N) (hvs : vs.length = N + 1) :
    vs.foldl pushSample init = vs.reverse.take N := by
  have hne : init ≠ [] := by
    intro h
    rw [h] at hinit
    simp at hinit
    omega
  rw [foldl_pushSample vs init hne, hinit,
    List.take_append_of_le_length (by simp [hvs])]

/-- Claim C6: every data-refresh tick shifts the raw CPU average into
index 0 of `cpu_avgs` evicting the oldest entry; whenever the tick
obtains a GPU sample it does the same for `gpu_avgs` with the raw GPU
utilization; and pushing `N+1` samples through a capacity-`N` buffer
leaves exactly the `N` most recent values, newest at index 0. -/
theorem C6_history :
    (∀ (m : Monitor) (a : ℚ) (us : List ℚ) (fs : List ℕ) (r : ℕ),
      m.cpu_avgs ≠ [] →
      (update_cpu_gpu_mem m a us fs r).cpu_avgs = a :: m.cpu_avgs.dropLast) ∧
    (∀ (m : Monitor) (a : ℚ) (us : List ℚ) (fs : List ℕ) (r : ℕ) (g : GpuInfo),
      gpu_update m.nv = .ok g → m.gpu_avgs ≠ [] →
      (update_cpu_gpu_mem m a us fs r).gpu_avgs = g.util :: m.gpu_avgs.dropLast) ∧
    (∀ (N : ℕ) (init vs : List ℚ), 1 ≤ N → init.length = N → vs.length = N + 1 →
      vs.foldl pushSample init = vs.reverse.take N) := by
  refine ⟨?_, ?_, ?_⟩
  · intro m a us fs r h
    unfold update_cpu_gpu_mem
    exact pushSample_eq_cons h a
  · intro m a us fs r g hg h
    unfold update_cpu_gpu_mem
    rw [hg]
    exact pushSample_eq_cons h g.util
  · intro N init vs hN hinit hvs
    exact foldl_pushSample_capacity hN hinit hvs

/-- A concrete working NVML device: every query succeeds. -/
def test_device : Device :=
  { memory_info := .ok ⟨100, 200⟩
    clock_info := .ok 300
    utilization_rates := .ok 40
    power_usage := .ok 5000 }

/-- A concrete working NVML handle. -/
def test_nvml : Nvml := ⟨.ok test_device⟩

/-- The GPU snapshot produced by `gpu_update` on `test_nvml`. -/
def test_gpu_info : GpuInfo :=
  { mem_used := 100, mem_total := 200,
    clock := ((300 : ℕ) : ℚ), power := ((5000 : ℕ) : ℚ), util := ((40 : ℕ) : ℚ) }

/-- A concrete monitor with a working GPU. -/
def test_monitor : Monitor := new_monitor (some test_nvml) 4 8

theorem gpu_update_test : gpu_update test_monitor.nv = .ok test_gpu_info := rfl

/-- Claim C6, witness: a concrete tick on a monitor with a working GPU,
and a concrete capacity-2 buffer receiving three pushes. -/
theorem C6_witness :
    (update_cpu_gpu_mem test_monitor 7 [] [] 0).cpu_avgs
      = 7 :: test_monitor.cpu_avgs.dropLast ∧
    (update_cpu_gpu_mem test_monitor 7 [] [] 0).gpu_avgs
      = test_gpu_info.util :: test_monitor.gpu_avgs.dropLast ∧
    ([1, 2, 3] : List ℚ).foldl pushSample [9, 9] = ([1, 2, 3] : List ℚ).reverse.take 2 :=
  ⟨C6_history.1 test_monitor 7 [] [] 0 (by simp [test_monitor, new_monitor, GRAPH_CHAR_WIDTH]),
   C6_history.2.1 test_monitor 7 [] [] 0 test_gpu_info gpu_update_test
     (by simp [test_monitor, new_monitor, GRAPH_CHAR_WIDTH]),
   C6_history.2.2 2 [9, 9] [1, 2, 3] (by norm_num) (by simp) (by simp)⟩

theorem update_nv_eq (m : Monitor) (a : ℚ) (us : List ℚ) (fs : List ℕ) (r : ℕ) :
    (update_cpu_gpu_mem m a us fs r).nv = m.nv := rfl

theorem update_gpu_error {m : Monitor} (a : ℚ) (us : List ℚ) (fs : List ℕ) (r : ℕ)
    {e : NvmlError} (h : gpu_update m.nv = .error e) :
    (update_cpu_gpu_mem m a us fs r).gpu_info = m.gpu_info ∧
    (update_cpu_gpu_mem m a us fs r).gpu_avgs = m.gpu_avgs := by
  unfold update_cpu_gpu_mem
  rw [h]
  exact ⟨rfl, rfl⟩

theorem runTicks_none_gpu {m : Monitor} (h : m.nv = none) (stream : List TickInput) :
    (runTicks m stream).gpu_info = m.gpu_info := by
  induction stream generalizing m with
  | nil => rfl
  | cons t rest ih =>
    unfold runTicks
    have hstep : gpu_update m.nv = .error .noData := by rw [h]; rfl
    rw [ih (m := update_cpu_gpu_mem m t.cpu_avg t.usages t.freqs t.ram)
      (by rw [update_nv_eq, h])]
    exact (update_gpu_error t.cpu_avg t.usages t.freqs t.ram hstep).1

/-- Claim C7: a failing GPU query during a data-refresh tick leaves the
stored `GpuInfo` (and the GPU history buffer) unchanged, no error reaches
the caller (`update_cpu_gpu_mem` is a total function into `Monitor`), an
absent NVML handle always fails with `NoData`, and a monitor constructed
without a GPU provider keeps the zeroed default GPU snapshot across every
sequence of ticks. -/
theorem C7_gpu_carry_forward :
    (∀ (m : Monitor) (a : ℚ) (us : List ℚ) (fs : List ℕ) (r : ℕ) (e : NvmlError),
      gpu_update m.nv = .error e →
      (update_cpu_gpu_mem m a us fs r).gpu_info = m.gpu_info ∧
      (update_cpu_gpu_mem m a us fs r).gpu_avgs = m.gpu_avgs) ∧
    gpu_update none = .error .noData ∧
    (∀ (pc cc : ℕ) (stream : List TickInput),
      (runTicks (new_monitor none pc cc) stream).gpu_info = GpuInfo.default) :=
  ⟨fun _ a us fs r _ h => update_gpu_error a us fs r h,
   rfl,
   fun _ _ stream => runTicks_none_gpu rfl stream⟩

/-- Claim C7, witness: one failing tick on a GPU-less monitor retains the
zeroed snapshot, and a concrete three-tick run stays zeroed. -/
theorem C7_witness :
    ((update_cpu_gpu_mem (new_monitor none 4 8) 1 [2] [3] 4).gpu_info
        = (new_monitor none 4 8).gpu_info ∧
      (update_cpu_gpu_mem (new_monitor none 4 8) 1 [2] [3] 4).gpu_avgs
        = (new_monitor none 4 8).gpu_avgs) ∧
    (runTicks (new_monitor none 4 8) [⟨1, [2], [3], 4⟩, ⟨5, [6], [7], 8⟩]).gpu_info
      = GpuInfo.default :=
  ⟨C7_gpu_carry_forward.1 (new_monitor none 4 8) 1 [2] [3] 4 .noData rfl,
   C7_gpu_carry_forward.2.2 4 8 [⟨1, [2], [3], 4⟩, ⟨5, [6], [7], 8⟩]⟩

/-- The closure `set_pixel` of `braille_graph` (lines 295–299): coordinates
outside the canvas are discarded, otherwise the pixel at flat index
`y * px_w + x` is set.  The `Vec<u8>` buffer is modelled as a total
function from flat indices to `Bool`. -/
def set_pixel (px_w px_h : ℕ) (pix : ℕ → Bool) (x y : ℤ) : ℕ → Bool :=
  if 0 ≤ x ∧ x.toNat < px_w ∧ 0 ≤ y ∧ y.toNat < px_h then
    fun i => if i = y.toNat * px_w + x.toNat then true else pix i
  else pix

/-- The Bresenham inner `loop` (lines 333–345), with explicit fuel.  The
fuel `(dx - dy + 1)` supplied by `bresenham` always suffices for the loop
to reach its own exit test in the cases exercised by the claims (proved
for the horizontal and zero-length segments below); the Rust loop has no
other exit. -/
def bresLoop (px_w px_h : ℕ) (x1 y1 sx sy dx dy : ℤ) :
    ℕ → ℤ → ℤ → ℤ → (ℕ → Bool) → (ℕ → Bool)
  | 0, _, _, _, pix => pix
  | fuel + 1, x0, y0, err, pix =>
    if x0 = x1 ∧ y0 = y1 then set_pixel px_w px_h pix x0 y0
    else
      bresLoop px_w px_h x1 y1 sx sy dx dy fuel
        (if dy ≤ 2 * err then x0 + sx else x0)
        (if 2 * err ≤ dx then y0 + sy else y0)
        (if 2 * err ≤ dx then (if dy ≤ 2 * err then err + dy else err) + dx
          else (if dy ≤ 2 * err then err + dy else err))
        (set_pixel px_w px_h pix x0 y0)

/-- Bresenham line rasterization between two points (lines 325–345):
set-up of `dx`, `sx`, `dy`, `sy`, `err` followed by the loop. -/
def bresenham (px_w px_h : ℕ) (p q : ℤ × ℤ) (pix : ℕ → Bool) : ℕ → Bool :=
  let dx := |q.1 - p.1|
  let sx : ℤ := if p.1 < q.1 then 1 else -1
  let dy := -|q.2 - p.2|
  let sy : ℤ := if p.2 < q.2 then 1 else -1
  bresLoop px_w px_h q.1 q.2 sx sy dx dy (dx - dy + 1).toNat p.1 p.2 (dx + dy) pix

/-- The x pixel coordinate of sample `i` of `n ≥ 2` (line 311):
`((i as f32) * ((px_w - 1) as f32) / ((n - 1) as f32)).round() as isize`;
the final cast is exact because the argument is a non-negative integer. -/
def xCoord (i n px_w : ℕ) : ℤ :=
  rround ((i : ℚ) * ((px_w - 1 : ℕ) : ℚ) / ((n - 1 : ℕ) : ℚ))

/-- The y pixel coordinate of one sample (lines 306 and 313):
`((1.0 - v/100.0) * (px_h as f32 - 1.0)).round() as isize` after clamping
the sample to `[0, 100]`. -/
def yCoord (v : F32) (px_h : ℕ) : ℤ :=
  (F32.scale ((px_h : ℚ) - 1) (F32.oneSub (F32.divC 100 (v.clamp 0 100)))).round.toIsize

/-- The sample-to-canvas coordinates (lines 302–317): a single sample is
centred horizontally, `n ≥ 2` samples are spread evenly. -/
def coords (data : List F32) (px_w px_h : ℕ) : List (ℤ × ℤ) :=
  let n := data.length
  if n = 1 then
    [(((px_w : ℤ) - 1) / 2, yCoord (data.getD 0 F32.nan) px_h)]
  else
    (List.range n).map (fun i => (xCoord i n px_w, yCoord (data.getD i F32.nan) px_h))

/-- The `for &pt in it` loop (lines 324–347): draw a Bresenham segment
from `last` to each subsequent point. -/
def drawSegs (px_w px_h : ℕ) : (ℤ × ℤ) → List (ℤ × ℤ) → (ℕ → Bool) → (ℕ → Bool)
  | _, [], pix => pix
  | last, pt :: rest, pix => drawSegs px_w px_h pt rest (bresenham px_w px_h last pt pix)

/-- Lines 320–348: set the first point's pixel, then connect consecutive
coordinate pairs. -/
def drawPath (px_w px_h : ℕ) (cs : List (ℤ × ℤ)) (pix : ℕ → Bool) : ℕ → Bool :=
  match cs with
  | [] => pix
  | first :: rest => drawSegs px_w px_h first rest (set_pixel px_w px_h pix first.1 first.2)

/-- The Braille sub-pixel bit table (lines 363–373). -/
def brailleBit : ℕ → ℕ → ℕ
  | 0, 0 => 0x01
  | 0, 1 => 0x02
  | 0, 2 => 0x04
  | 1, 0 => 0x08
  | 1, 1 => 0x10
  | 1, 2 => 0x20
  | 0, 3 => 0x40
  | 1, 3 => 0x80
  | _, _ => 0

/-- The bit pattern of one character cell (lines 354–377): OR of the bits
of the lit sub-pixels. -/
def cellBits (pix : ℕ → Bool) (px_w : ℕ) (char_row char_col : ℕ) : ℕ :=
  (List.range 4).foldl (fun bits sub_y =>
    (List.range 2).foldl (fun bits sub_x =>
      if pix ((char_row * 4 + sub_y) * px_w + (char_col * 2 + sub_x)) then
        bits ||| brailleBit sub_x sub_y
      else bits) bits) 0

/-- Lines 378–383: an all-zero cell renders as a space, otherwise as the
Braille character `0x2800 + bits` (always a valid scalar value, so the
code's `unwrap_or(' ')` never fires). -/
def brailleChar (bits : ℕ) : Char :=
  if bits = 0 then ' ' else Char.ofNat (0x2800 + bits)

/-- Method `braille_graph` (lines 285–390).  `saturating_mul` cannot
saturate on `ℕ`; rows are joined by `'\n'` with no trailing newline,
exactly as the `char_row + 1 < vertical_lines` guard does. -/
def braille_graph (data : List F32) (vertical_lines : ℕ) : String :=
  if data.isEmpty ∨ vertical_lines = 0 then "" else
  String.intercalate "\n"
    ((List.range vertical_lines).map (fun char_row =>
      ⟨(List.range GRAPH_CHAR_WIDTH).map (fun char_col =>
        brailleChar (cellBits
          (drawPath (GRAPH_CHAR_WIDTH * 2) (vertical_lines * 4)
            (coords data (GRAPH_CHAR_WIDTH * 2) (vertical_lines * 4)) (fun _ => false))
          (GRAPH_CHAR_WIDTH * 2) char_row char_col))⟩))

/-- The bit pattern of a full horizontal line through sub-row `s` of a
cell: both sub-pixel columns lit. -/
def lineBits (s : ℕ) : ℕ := brailleBit 0 s ||| brailleBit 1 s

/-- The constant `ALPHA = 0.95` of `update_visual` (display EMA). -/
def ALPHA : ℚ := 95 / 100

/-- The constant `ALPHA_SMOOTH = 0.99` of `update_visual` (animation EMA). -/
def ALPHA_SMOOTH : ℚ := 99 / 100

/-- The closure `to` of `update_visual` (named `to'` because `to` is a
reserved word): one display-EMA step. -/
def to' (a b : ℚ) : ℚ := ALPHA * a + (1 - ALPHA) * b

/-- The closure `to_smooth` of `update_visual`: one animation-EMA step. -/
def to_smooth (a b : ℚ) : ℚ := ALPHA_SMOOTH * a + (1 - ALPHA_SMOOTH) * b

/-- Method `update_visual` (lines 247–268), restricted to the smoothing of
`self.smooth` (the shader-uniform side effect is out of the claims'
scope).  The raw `f32` scalars it reads from `cpu_info` are passed as
rationals; `gpu_info` is passed whole to make visible which of its fields
are consumed (clock, power, util — not the memory fields). -/
def update_visual (s : InterpolatedInfo) (cpu_avg cpu_max cpu_freq : ℚ)
    (g : GpuInfo) : InterpolatedInfo :=
  { cpu_avg := to' s.cpu_avg cpu_avg
    cpu_max := to' s.cpu_max cpu_max
    cpu_freq := to' s.cpu_freq cpu_freq
    cpu_avg_smooth := to_smooth s.cpu_avg_smooth cpu_avg
    cpu_freq_smooth := to_smooth s.cpu_freq_smooth cpu_freq
    cpu_max_smooth := to_smooth s.cpu_max_smooth cpu_max
    gpu_clock := to' s.gpu_clock g.clock
    gpu_power := to' s.gpu_power g.power
    gpu_util := to' s.gpu_util g.util }

/-- Claim C4: every tracked smoothed scalar is updated independently by
`smoothed_new = α·smoothed_old + (1-α)·raw_new`, with `α = 0.95` for the
display fields and `α = 0.99` for the `_smooth` animation fields, while
the GPU memory fields are never run through an EMA: the data-refresh tick
stores the raw snapshot (or carries the old one forward) and
`update_visual` produces no smoothed memory value at all. -/
theorem C4_smoothing_formula :
    (∀ (s : InterpolatedInfo) (cpu_avg cpu_max cpu_freq : ℚ) (g : GpuInfo),
      update_visual s cpu_avg cpu_max cpu_freq g =
        { cpu_avg := ALPHA * s.cpu_avg + (1 - ALPHA) * cpu_avg
          cpu_max := ALPHA * s.cpu_max + (1 - ALPHA) * cpu_max
          cpu_freq := ALPHA * s.cpu_freq + (1 - ALPHA) * cpu_freq
          cpu_avg_smooth := ALPHA_SMOOTH * s.cpu_avg_smooth + (1 - ALPHA_SMOOTH) * cpu_avg
          cpu_freq_smooth := ALPHA_SMOOTH * s.cpu_freq_smooth + (1 - ALPHA_SMOOTH) * cpu_freq
          cpu_max_smooth := ALPHA_SMOOTH * s.cpu_max_smooth + (1 - ALPHA_SMOOTH) * cpu_max
          gpu_clock := ALPHA * s.gpu_clock + (1 - ALPHA) * g.clock
          gpu_power := ALPHA * s.gpu_power + (1 - ALPHA) * g.power
          gpu_util := ALPHA * s.gpu_util + (1 - ALPHA) * g.util }) ∧
    ALPHA = 95 / 100 ∧ ALPHA_SMOOTH = 99 / 100 ∧
    (∀ (m : Monitor) (a : ℚ) (us : List ℚ) (fs : List ℕ) (r : ℕ),
      (update_cpu_gpu_mem m a us fs r).gpu_info.mem_used =
        ((gpu_update m.nv).toOption.getD m.gpu_info).mem_used ∧
      (update_cpu_gpu_mem m a us fs r).gpu_info.mem_total =
        ((gpu_update m.nv).toOption.getD m.gpu_info).mem_total) :=
  ⟨fun _ _ _ _ _ => rfl, rfl, rfl, fun _ _ _ _ _ => ⟨rfl, rfl⟩⟩

/-- Iterating one EMA step of `update_visual` from the zero initial value
with a constant raw input `v`. -/
def emaSeq (f : ℚ → ℚ → ℚ) (v : ℚ) : ℕ → ℚ
  | 0 => 0
  | n + 1 => f (emaSeq f v n) v

/-- Iterating the whole of `update_visual` from the default (zeroed)
`InterpolatedInfo` with every raw input held constant at `v`. -/
def visIter (v : ℚ) : ℕ → InterpolatedInfo
  | 0 => InterpolatedInfo.default
  | n + 1 => update_visual (visIter v n) v v v ⟨0, 0, v, v, v⟩

theorem visIter_eq_emaSeq (v : ℚ) (n : ℕ) :
    visIter v n =
      { cpu_avg := emaSeq to' v n
        cpu_max := emaSeq to' v n
        cpu_freq := emaSeq to' v n
        cpu_avg_smooth := emaSeq to_smooth v n
        cpu_freq_smooth := emaSeq to_smooth v n
        cpu_max_smooth := emaSeq to_smooth v n
        gpu_clock := emaSeq to' v n
        gpu_power := emaSeq to' v n
        gpu_util := emaSeq to' v n } := by
  induction n with
  | zero => rfl
  | succ n ih => rw [visIter, ih]; rfl

theorem emaSeq_closed {f : ℚ → ℚ → ℚ} {a : ℚ}
    (hf : ∀ s r, f s r = a * s + (1 - a) * r) (v : ℚ) :
    ∀ n, v - emaSeq f v n = v * a ^ n := by
  intro n
  induction n with
  | zero => simp [emaSeq]
  | succ n ih =>
    rw [emaSeq, hf, pow_succ]
    have : emaSeq f v n = v - v * a ^ n := by linarith
    rw [this]
    ring

theorem emaSeq_le_of_nonneg {f : ℚ → ℚ → ℚ} {a : ℚ}
    (hf : ∀ s r, f s r = a * s + (1 - a) * r) {v : ℚ} (hv : 0 ≤ v)
    (ha : 0 ≤ a) (n : ℕ) : emaSeq f v n ≤ v := by
  have h := emaSeq_closed hf v n
  have : 0 ≤ v * a ^ n := mul_nonneg hv (pow_nonneg ha n)
  linarith

theorem emaSeq_mono {f : ℚ → ℚ → ℚ} {a : ℚ}
    (hf : ∀ s r, f s r = a * s + (1 - a) * r) {v : ℚ} (hv : 0 ≤ v)
    (ha : 0 ≤ a) (ha1 : a ≤ 1) (n : ℕ) : emaSeq f v n ≤ emaSeq f v (n + 1) := by
  have h1 := emaSeq_closed hf v n
  have h2 := emaSeq_closed hf v (n + 1)
  have hpow : a ^ (n + 1) ≤ a ^ n := pow_le_pow_of_le_one ha ha1 (Nat.le_succ n)
  have := mul_le_mul_of_nonneg_left hpow hv
  linarith

theorem to'_closed : ∀ s r, to' s r = ALPHA * s + (1 - ALPHA) * r := fun _ _ => rfl

theorem to_smooth_closed : ∀ s r, to_smooth s r = ALPHA_SMOOTH * s + (1 - ALPHA_SMOOTH) * r :=
  fun _ _ => rfl

theorem alpha_pow_300_le : (100 : ℚ) * ALPHA ^ 300 ≤ 1 / 1000 := by
  have hN : (10 : ℕ) ^ 5 * 95 ^ 300 ≤ 100 ^ 300 := by decide
  have hQ : ((10 : ℚ) ^ 5) * 95 ^ 300 ≤ 100 ^ 300 := by exact_mod_cast hN
  unfold ALPHA
  rw [div_pow, ← mul_div_assoc,
    div_le_div_iff₀ (by positivity) (by norm_num : (0 : ℚ) < 1000)]
  calc (100 : ℚ) * 95 ^ 300 * 1000 = 10 ^ 5 * 95 ^ 300 := by ring
    _ ≤ 100 ^ 300 := hQ
    _ = 1 * 100 ^ 300 := by ring

theorem alpha_pow_300_large : (1 : ℚ) / 1000 < 10 ^ 7 * ALPHA ^ 300 := by
  have hN : (100 : ℕ) ^ 300 < 10 ^ 10 * 95 ^ 300 := by decide
  have hQ : ((100 : ℚ) ^ 300) < 10 ^ 10 * 95 ^ 300 := by exact_mod_cast hN
  unfold ALPHA
  rw [div_pow, ← mul_div_assoc,
    div_lt_div_iff₀ (by norm_num : (0 : ℚ) < 1000) (by positivity)]
  calc (1 : ℚ) * 100 ^ 300 = 100 ^ 300 := by ring
    _ < 10 ^ 10 * 95 ^ 300 := hQ
    _ = 10 ^ 7 * 95 ^ 300 * 1000 := by ring

/-- Claim C5, counterexample: for the constant raw input `v = 10^7`, after
300 display-EMA ticks (α = 0.95) the smoothed value still differs from
`v` by more than `10^-3` (the residual is `v·0.95^300 ≈ 2`), so the
claimed bound does not hold for every non-negative `v`. -/
theorem C5_counterexample :
    ¬ (|(10 ^ 7 : ℚ) - emaSeq to' (10 ^ 7) 300| ≤ 1 / 1000) := by
  have h := emaSeq_closed to'_closed (10 ^ 7 : ℚ) 300
  rw [not_le, h, abs_of_nonneg (by positivity)]
  exact alpha_pow_300_large

/-- Claim C5 (amended): every smoothed metric starts at 0; for any
constant non-negative raw input `v`, iterated `update_visual` ticks drive
every smoothed field monotonically toward `v` without overshooting; and
after 300 display-EMA ticks (α = 0.95) the smoothed value is within
`10^-3` of `v` provided `v ≤ 100` (the residual is exactly `v·0.95^300`,
so the spec's absolute bound cannot hold for arbitrarily large `v`, e.g.
for the frequency scale). -/
theorem C5_ema_convergence :
    InterpolatedInfo.default =
      ({ cpu_avg := 0, cpu_max := 0, cpu_freq := 0, cpu_avg_smooth := 0,
         cpu_freq_smooth := 0, cpu_max_smooth := 0, gpu_clock := 0,
         gpu_power := 0, gpu_util := 0 } : InterpolatedInfo) ∧
    (∀ (v : ℚ) (n : ℕ),
      visIter v n =
        { cpu_avg := emaSeq to' v n
          cpu_max := emaSeq to' v n
          cpu_freq := emaSeq to' v n
          cpu_avg_smooth := emaSeq to_smooth v n
          cpu_freq_smooth := emaSeq to_smooth v n
          cpu_max_smooth := emaSeq to_smooth v n
          gpu_clock := emaSeq to' v n
          gpu_power := emaSeq to' v n
          gpu_util := emaSeq to' v n }) ∧
    (∀ v : ℚ, 0 ≤ v →
      emaSeq to' v 0 = 0 ∧ emaSeq to_smooth v 0 = 0 ∧
      (∀ n : ℕ, emaSeq to' v n ≤ emaSeq to' v (n + 1) ∧ emaSeq to' v n ≤ v) ∧
      (∀ n : ℕ, emaSeq to_smooth v n ≤ emaSeq to_smooth v (n + 1) ∧
        emaSeq to_smooth v n ≤ v) ∧
      (v ≤ 100 → |v - emaSeq to' v 300| ≤ 1 / 1000)) := by
  refine ⟨rfl, visIter_eq_emaSeq, fun v hv => ⟨rfl, rfl, ?_, ?_, ?_⟩⟩
  · intro n
    exact ⟨emaSeq_mono to'_closed hv (by norm_num [ALPHA]) (by norm_num [ALPHA]) n,
      emaSeq_le_of_nonneg to'_closed hv (by norm_num [ALPHA]) n⟩
  · intro n
    exact ⟨emaSeq_mono to_smooth_closed hv (by norm_num [ALPHA_SMOOTH])
        (by norm_num [ALPHA_SMOOTH]) n,
      emaSeq_le_of_nonneg to_smooth_closed hv (by norm_num [ALPHA_SMOOTH]) n⟩
  · intro hv100
    have h := emaSeq_closed to'_closed v 300
    rw [h, abs_of_nonneg (by positivity)]
    calc v * ALPHA ^ 300 ≤ 100 * ALPHA ^ 300 := by
          have : (0 : ℚ) ≤ ALPHA ^ 300 := by positivity
          nlinarith
      _ ≤ 1 / 1000 := alpha_pow_300_le

/-- Claim C5, witness of the amended theorem at `v = 50`. -/
theorem C5_witness :
    emaSeq to' 50 0 = 0 ∧
    (emaSeq to' (50 : ℚ) 3 ≤ emaSeq to' 50 4 ∧ emaSeq to' (50 : ℚ) 3 ≤ 50) ∧
    |(50 : ℚ) - emaSeq to' 50 300| ≤ 1 / 1000 :=
  ⟨(C5_ema_convergence.2.2 50 (by norm_num)).1,
   (C5_ema_convergence.2.2 50 (by norm_num)).2.2.1 3,
   (C5_ema_convergence.2.2 50 (by norm_num)).2.2.2.2 (by norm_num)⟩

/-- Claim C1 (amended): `block_graph` maps each sample `v` to the glyph
with index `round(clamp(v,0,100)/100 * 9)` clamped to `[0,8]`, the output
has exactly one character per input sample, and the input `[0, 50, 100]`
yields glyph indices `[0, 5, 8]`, that is the string `" ▅█"`. -/
theorem C1_block_graph :
    (∀ q : ℚ, blockIndex (F32.fin q) = blockIndexNine q) ∧
    (∀ data : List F32, (block_graph data).length = data.length) ∧
    block_graph [F32.fin 0, F32.fin 50, F32.fin 100] = " ▅█" := by
  refine ⟨blockIndex_fin, fun data => ?_, ?_⟩
  · simp [block_graph, String.length]
  · simp only [block_graph, List.map, blockIndex_zero, blockIndex_fifty, blockIndex_hundred]
    decide

theorem fmax_none_right (a : Option ℚ) : fmax a none = a := by cases a <;> rfl

theorem fmax_comm (a b : Option ℚ) : fmax a b = fmax b a := by
  cases a <;> cases b <;> simp [fmax, max_comm]

theorem fmax_assoc (a b c : Option ℚ) : fmax (fmax a b) c = fmax a (fmax b c) := by
  cases a <;> cases b <;> cases c <;> simp [fmax, max_assoc]

theorem foldr_fmax (xs : List (Option ℚ)) (b : Option ℚ) :
    xs.foldr fmax b = fmax (xs.foldr fmax none) b := by
  induction xs with
  | nil => simp [List.foldr, fmax]
  | cons x xs ih => rw [List.foldr_cons, List.foldr_cons, ih, ← fmax_assoc]

theorem foldr_natMax (xs : List ℕ) (b : ℕ) :
    xs.foldr max b = max (xs.foldr max 0) b := by
  induction xs with
  | nil => simp [List.foldr]
  | cons x xs ih => rw [List.foldr_cons, List.foldr_cons, ih, ← max_assoc]

theorem groupCpu_append_one (pref : List ProcessInfo) (pi : ProcessInfo) (s : String) :
    groupCpu (pref ++ [pi]) s =
      if pi.name = s then fmax (groupCpu pref s) pi.cpu else groupCpu pref s := by
  unfold groupCpu
  rw [List.filter_append, List.map_append, List.foldr_append]
  by_cases h : pi.name = s
  · rw [if_pos h]
    simp only [List.filter, h, beq_self_eq_true, List.map, List.foldr, fmax_none_right]
    exact foldr_fmax _ _
  · rw [if_neg h]
    have : (pi.name == s) = false := beq_eq_false_iff_ne.mpr h
    simp [List.filter, this]

theorem groupMem_append_one (pref : List ProcessInfo) (pi : ProcessInfo) (s : String) :
    groupMem (pref ++ [pi]) s =
      if pi.name = s then max (groupMem pref s) pi.mem else groupMem pref s := by
  unfold groupMem
  rw [List.filter_append, List.map_append, List.foldr_append]
  by_cases h : pi.name = s
  · rw [if_pos h]
    simp only [List.filter, h, beq_self_eq_true, List.map, List.foldr]
    rw [show pi.mem ⊔ 0 = pi.mem from by simp, foldr_natMax]
  · rw [if_neg h]
    have : (pi.name == s) = false := beq_eq_false_iff_ne.mpr h
    simp [List.filter, this]

theorem groupCpu_of_not_mem {pref : List ProcessInfo} {s : String}
    (h : s ∉ pref.map (fun q => q.name)) : groupCpu pref s = none := by
  unfold groupCpu
  rw [List.filter_eq_nil_iff.mpr]
  · rfl
  · intro p hp
    simp only [beq_iff_eq]
    intro hn
    exact h (hn ▸ List.mem_map_of_mem (fun q => q.name) hp)

theorem groupMem_of_not_mem {pref : List ProcessInfo} {s : String}
    (h : s ∉ pref.map (fun q => q.name)) : groupMem pref s = 0 := by
  unfold groupMem
  rw [List.filter_eq_nil_iff.mpr]
  · rfl
  · intro p hp
    simp only [beq_iff_eq]
    intro hn
    exact h (hn ▸ List.mem_map_of_mem (fun q => q.name) hp)

theorem hmInsert_names {acc : List ProcessInfo} {v : ProcessInfo}
    (hex : ∃ q ∈ acc, q.name = v.name) :
    (hmInsert acc v).map (fun p => p.name) = acc.map (fun p => p.name) := by
  induction acc with
  | nil =>
    obtain ⟨q, hq, _⟩ := hex
    cases hq
  | cons a rest ih =>
    by_cases h : a.name = v.name
    · simp [hmInsert, h]
    · have hex' : ∃ q ∈ rest, q.name = v.name := by
        obtain ⟨q, hq, hqn⟩ := hex
        rcases List.mem_cons.mp hq with rfl | hmem
        · exact absurd hqn h
        · exact ⟨q, hmem, hqn⟩
      simp [hmInsert, h, ih hex']

theorem mem_hmInsert_iff {acc : List ProcessInfo} {v : ProcessInfo}
    (hnd : (acc.map (fun p => p.name)).Nodup)
    (hex : ∃ q ∈ acc, q.name = v.name) (p : ProcessInfo) :
    p ∈ hmInsert acc v ↔ p = v ∨ (p ∈ acc ∧ p.name ≠ v.name) := by
  induction acc with
  | nil =>
    obtain ⟨q, hq, _⟩ := hex
    cases hq
  | cons a rest ih =>
    rw [List.map_cons, List.nodup_cons] at hnd
    by_cases h : a.name = v.name
    · simp only [hmInsert, if_pos h, List.mem_cons]
      constructor
      · rintro (rfl | hp)
        · exact Or.inl rfl
        · refine Or.inr ⟨Or.inr hp, fun hpn => ?_⟩
          exact hnd.1 (by rw [h, ← hpn]; exact List.mem_map_of_mem (fun q => q.name) hp)
      · rintro (rfl | ⟨hp, hpn⟩)
        · exact Or.inl rfl
        · rcases hp with rfl | hmem
          · exact absurd h hpn
          · exact Or.inr hmem
    · have hex' : ∃ q ∈ rest, q.name = v.name := by
        obtain ⟨q, hq, hqn⟩ := hex
        rcases List.mem_cons.mp hq with rfl | hmem
        · exact absurd hqn h
        · exact ⟨q, hmem, hqn⟩
      simp only [hmInsert, if_neg h, List.mem_cons, ih hnd.2 hex']
      constructor
      · rintro (rfl | hp | ⟨hmem, hne⟩)
        · exact Or.inr ⟨Or.inl rfl, h⟩
        · exact Or.inl hp
        · exact Or.inr ⟨Or.inr hmem, hne⟩
      · rintro (rfl | ⟨hp, hpn⟩)
        · exact Or.inr (Or.inl rfl)
        · rcases hp with rfl | hmem
          · exact Or.inl rfl
          · exact Or.inr (Or.inr ⟨hmem, hpn⟩)

def AggInv (pref acc : List ProcessInfo) : Prop :=
  (acc.map (fun p => p.name)).Nodup ∧
  (∀ p ∈ acc, p.cpu = groupCpu pref p.name ∧ p.mem = groupMem pref p.name) ∧
  (∀ p ∈ acc, p.name ∈ pref.map (fun q => q.name)) ∧
  (∀ s ∈ pref.map (fun q => q.name), ∃ p ∈ acc, p.name = s)

theorem aggStep {pref acc : List ProcessInfo} (h : AggInv pref acc) (pi : ProcessInfo) :
    AggInv (pref ++ [pi]) (insertProcess acc pi) := by
  obtain ⟨hnd, hfields, hsub, hcover⟩ := h
  cases hfind : acc.find? (fun q => q.name == pi.name) with
  | none =>
    have hni : ∀ q ∈ acc, q.name ≠ pi.name := by
      intro q hq
      have := List.find?_eq_none.mp hfind q hq
      simpa using this
    have hnp : pi.name ∉ pref.map (fun q => q.name) := by
      intro hmem
      obtain ⟨p, hp, hpn⟩ := hcover _ hmem
      exact hni p hp hpn
    simp only [insertProcess, hfind]
    refine ⟨?_, ?_, ?_, ?_⟩
    · rw [List.map_append]
      rw [List.nodup_append]
      refine ⟨hnd, List.nodup_singleton _, ?_⟩
      intro x hx
      simp only [List.map_cons, List.map_nil, List.mem_singleton]
      obtain ⟨q, hq, rfl⟩ := List.mem_map.mp hx
      intro hqe
      exact hni q hq hqe
    · intro p hp
      rcases List.mem_append.mp hp with hmem | hmem
      · have hne : pi.name ≠ p.name := by
          intro he
          exact hni p hmem he.symm
        rw [groupCpu_append_one, groupMem_append_one, if_neg hne, if_neg hne]
        exact hfields p hmem
      · rw [List.mem_singleton] at hmem
        subst hmem
        rw [groupCpu_append_one, groupMem_append_one, if_pos rfl, if_pos rfl,
          groupCpu_of_not_mem hnp, groupMem_of_not_mem hnp]
        constructor
        · rfl
        · simp
    · intro p hp
      rw [List.map_append]
      rcases List.mem_append.mp hp with hmem | hmem
      · exact List.mem_append_left _ (hsub p hmem)
      · rw [List.mem_singleton] at hmem
        subst hmem
        simp
    · intro s hs
      rw [List.map_append] at hs
      rcases List.mem_append.mp hs with hmem | hmem
      · obtain ⟨p, hp, hpn⟩ := hcover s hmem
        exact ⟨p, List.mem_append_left _ hp, hpn⟩
      · simp only [List.map_cons, List.map_nil, List.mem_singleton] at hmem
        exact ⟨pi, List.mem_append_right _ (List.mem_singleton.mpr rfl), hmem.symm⟩
  | some pi_old =>
    have hpo_mem : pi_old ∈ acc := List.mem_of_find?_eq_some hfind
    have hpo_name : pi_old.name = pi.name := by
      have := List.find?_some hfind
      simpa using this
    have hex : ∃ q ∈ acc, q.name =
        ({ name := pi_old.name, cpu := fmax pi.cpu pi_old.cpu,
           mem := max pi.mem pi_old.mem, pid := pi_old.pid } : ProcessInfo).name :=
      ⟨pi_old, hpo_mem, rfl⟩
    simp only [insertProcess, hfind]
    refine ⟨?_, ?_, ?_, ?_⟩
    · rw [hmInsert_names hex]
      exact hnd
    · intro p hp
      rcases (mem_hmInsert_iff hnd hex p).mp hp with rfl | ⟨hmem, hne⟩
      · simp only
        rw [hpo_name, groupCpu_append_one, groupMem_append_one, if_pos rfl, if_pos rfl]
        have hold := hfields pi_old hpo_mem
        rw [← hpo_name, ← hold.1, ← hold.2]
        exact ⟨fmax_comm pi.cpu pi_old.cpu, max_comm pi.mem pi_old.mem⟩
      · simp only at hne
        have hne' : pi.name ≠ p.name := by
          rw [← hpo_name]
          intro he
          exact hne he.symm
        rw [groupCpu_append_one, groupMem_append_one, if_neg hne', if_neg hne']
        exact hfields p hmem
    · intro p hp
      rw [List.map_append]
      rcases (mem_hmInsert_iff hnd hex p).mp hp with rfl | ⟨hmem, _⟩
      · exact List.mem_append_left _ (hsub pi_old hpo_mem)
      · exact List.mem_append_left _ (hsub p hmem)
    · intro s hs
      rw [List.map_append] at hs
      rcases List.mem_append.mp hs with hmem | hmem
      · obtain ⟨p, hp, hpn⟩ := hcover s hmem
        by_cases hc : p.name = pi.name
        · refine ⟨_, (mem_hmInsert_iff hnd hex _).mpr (Or.inl rfl), ?_⟩
          simp only
          rw [hpo_name, ← hc, hpn]
        · exact ⟨p, (mem_hmInsert_iff hnd hex p).mpr
            (Or.inr ⟨hp, by simpa [hpo_name] using hc⟩), hpn⟩
      · simp only [List.map_cons, List.map_nil, List.mem_singleton] at hmem
        refine ⟨_, (mem_hmInsert_iff hnd hex _).mpr (Or.inl rfl), ?_⟩
        simp only
        rw [hpo_name, hmem]

theorem aggregate_inv (table : List ProcessInfo) : AggInv table (aggregate table) := by
  have aux : ∀ (suffix pref acc : List ProcessInfo), AggInv pref acc →
      AggInv (pref ++ suffix) (suffix.foldl insertProcess acc) := by
    intro suffix
    induction suffix with
    | nil =>
      intro pref acc h
      simpa using h
    | cons x xs ih =>
      intro pref acc h
      have := ih (pref ++ [x]) (insertProcess acc x) (aggStep h x)
      simpa [List.append_assoc] using this
  have base : AggInv [] [] := ⟨by simp, by simp, by simp, by simp⟩
  simpa using aux table [] [] base

theorem compare_cpu_nan {a b : ProcessInfo} (h : a.cpu = none ∨ b.cpu = none) :
    ProcessBy.Cpu.compare a b = .eq := by
  rcases h with h | h
  · cases hb : b.cpu <;> simp [ProcessBy.compare, fcmp, h, hb]
  · cases ha : a.cpu <;> simp [ProcessBy.compare, fcmp, h, ha]

theorem sortLe_cpu_some {a b : ProcessInfo} {x y : ℚ} (ha : a.cpu = some x)
    (hb : b.cpu = some y) : sortLe .Cpu a b = true ↔ y ≤ x := by
  simp only [sortLe, ProcessBy.compare, ha, hb, fcmp, Option.getD_some, qcmp]
  rcases lt_trichotomy y x with h | h | h
  · rw [if_pos h]
    constructor
    · intro _
      exact h.le
    · intro _
      decide
  · subst h
    rw [if_neg (lt_irrefl y), if_pos rfl]
    constructor
    · intro _
      exact le_refl y
    · intro _
      decide
  · rw [if_neg (by linarith), if_neg (by linarith)]
    constructor
    · intro hc
      exact absurd hc (by decide)
    · intro hc
      exact absurd hc (not_le.mpr h)

theorem sortLe_ram {a b : ProcessInfo} : sortLe .Ram a b = true ↔ b.mem ≤ a.mem := by
  simp only [sortLe, ProcessBy.compare, Option.getD_some, ncmp]
  rcases lt_trichotomy b.mem a.mem with h | h | h
  · rw [if_pos h]
    constructor
    · intro _
      omega
    · intro _
      decide
  · rw [if_neg (by omega), if_pos h]
    constructor
    · intro _
      omega
    · intro _
      decide
  · rw [if_neg (by omega), if_neg (by omega)]
    constructor
    · intro hc
      exact absurd hc (by decide)
    · intro hc
      omega

theorem sortLe_total (k : ProcessBy) (a b : ProcessInfo) :
    (sortLe k a b || sortLe k b a) = true := by
  rw [Bool.or_eq_true]
  cases k with
  | Cpu =>
    cases ha : a.cpu with
    | none =>
      left
      simp only [sortLe, compare_cpu_nan (Or.inl ha)]
      rfl
    | some x =>
      cases hb : b.cpu with
      | none =>
        left
        simp only [sortLe, compare_cpu_nan (Or.inr hb)]
        rfl
      | some y =>
        rcases le_total y x with h | h
        · left
          exact (sortLe_cpu_some ha hb).mpr h
        · right
          exact (sortLe_cpu_some hb ha).mpr h
  | Ram =>
    rcases Nat.le_total b.mem a.mem with h | h
    · left
      exact sortLe_ram.mpr h
    · right
      exact sortLe_ram.mpr h

theorem sortLe_ram_trans (a b c : ProcessInfo) :
    sortLe .Ram a b → sortLe .Ram b c → sortLe .Ram a c := by
  intro hab hbc
  exact sortLe_ram.mpr (le_trans (sortLe_ram.mp hbc) (sortLe_ram.mp hab))

theorem mergeSort_ram_idem (l : List ProcessInfo) :
    (l.mergeSort (sortLe .Ram)).mergeSort (sortLe .Ram) = l.mergeSort (sortLe .Ram) :=
  List.mergeSort_of_sorted
    (List.sorted_mergeSort sortLe_ram_trans (fun a b => sortLe_total .Ram a b) l)

theorem mergeSort_cpu_idem {l : List ProcessInfo} (h : ∀ p ∈ l, p.cpu.isSome) :
    (l.mergeSort (sortLe .Cpu)).mergeSort (sortLe .Cpu) = l.mergeSort (sortLe .Cpu) := by
  have hms := @List.map_mergeSort {x // x ∈ l} ProcessInfo
    (fun a b => sortLe .Cpu a.1 b.1) (sortLe .Cpu) Subtype.val l.attach
    (fun a _ b _ => rfl)
  rw [List.attach_map_subtype_val] at hms
  have htrans : ∀ a b c : {x // x ∈ l},
      (fun a b : {x // x ∈ l} => sortLe .Cpu a.1 b.1) a b →
      (fun a b : {x // x ∈ l} => sortLe .Cpu a.1 b.1) b c →
      (fun a b : {x // x ∈ l} => sortLe .Cpu a.1 b.1) a c := by
    intro a b c hab hbc
    obtain ⟨x, hx⟩ := Option.isSome_iff_exists.mp (h a.1 a.2)
    obtain ⟨y, hy⟩ := Option.isSome_iff_exists.mp (h b.1 b.2)
    obtain ⟨z, hz⟩ := Option.isSome_iff_exists.mp (h c.1 c.2)
    have h1 := (sortLe_cpu_some hx hy).mp hab
    have h2 := (sortLe_cpu_some hy hz).mp hbc
    exact (sortLe_cpu_some hx hz).mpr (le_trans h2 h1)
  have htotal : ∀ a b : {x // x ∈ l},
      ((fun a b : {x // x ∈ l} => sortLe .Cpu a.1 b.1) a b ||
       (fun a b : {x // x ∈ l} => sortLe .Cpu a.1 b.1) b a) = true :=
    fun a b => sortLe_total .Cpu a.1 b.1
  have hpw := List.sorted_mergeSort htrans htotal l.attach
  have hpw2 : (l.mergeSort (sortLe .Cpu)).Pairwise (fun a b => sortLe .Cpu a b) := by
    rw [← hms]
    exact hpw.map _ (fun a b hab => hab)
  exact List.mergeSort_of_sorted hpw2

/-- The synthetic two-process table of the spec's merge test. -/
def exampleTable : List ProcessInfo :=
  [⟨"x", some 10, 100, 1⟩, ⟨"x", some 40, 50, 2⟩]

/-- Claim C3: after aggregation no two records share a name, and every
record's cpu and memory equal the per-field maximum (the `f32::max` resp.
`u64::max` fold) over all input processes of that name — not their sum;
in particular the two processes named "x" with (cpu 10, mem 100) and
(cpu 40, mem 50) merge into the single record (cpu 40, mem 100). -/
theorem C3_aggregation :
    (∀ table : List ProcessInfo,
      ((aggregate table).map (fun p => p.name)).Nodup ∧
      ∀ p ∈ aggregate table,
        p.cpu = groupCpu table p.name ∧ p.mem = groupMem table p.name) ∧
    aggregate exampleTable = [⟨"x", some 40, 100, 1⟩] := by
  constructor
  · intro table
    obtain ⟨hnd, hfields, _, _⟩ := aggregate_inv table
    exact ⟨hnd, hfields⟩
  · simp [exampleTable, aggregate, insertProcess, hmInsert, fmax, List.find?]
    norm_num

/-- Claim C3, witness at the spec's synthetic table. -/
theorem C3_witness :
    ((aggregate exampleTable).map (fun p => p.name)).Nodup ∧
    (⟨"x", some 40, 100, 1⟩ : ProcessInfo).cpu
      = groupCpu exampleTable (⟨"x", some 40, 100, 1⟩ : ProcessInfo).name ∧
    (⟨"x", some 40, 100, 1⟩ : ProcessInfo).mem
      = groupMem exampleTable (⟨"x", some 40, 100, 1⟩ : ProcessInfo).name :=
  ⟨(C3_aggregation.1 exampleTable).1,
   ((C3_aggregation.1 exampleTable).2 ⟨"x", some 40, 100, 1⟩
     (by rw [C3_aggregation.2]; exact List.mem_singleton.mpr rfl)).1,
   ((C3_aggregation.1 exampleTable).2 ⟨"x", some 40, 100, 1⟩
     (by rw [C3_aggregation.2]; exact List.mem_singleton.mpr rfl)).2⟩

/-- An aggregated record list on which the sort is not idempotent: its
NaN CPU values make the comparator non-transitive. -/
def nanSortList : List ProcessInfo :=
  [⟨"a", none, 0, 1⟩, ⟨"b", none, 0, 2⟩, ⟨"c", some 0, 0, 3⟩,
   ⟨"d", some 1, 0, 4⟩, ⟨"e", none, 0, 5⟩, ⟨"f", some 1, 0, 6⟩]

/-- Claim C9, counterexample: with NaN CPU values present the comparator
(NaN compares equal to everything) is not transitive, and the stable sort
is NOT idempotent: re-sorting this already-sorted six-record list changes
the order.  (Rust's `sort_by` likewise leaves the order unspecified for a
non-total comparator.) -/
theorem C9_counterexample :
    (nanSortList.mergeSort (sortLe .Cpu)).mergeSort (sortLe .Cpu)
      ≠ nanSortList.mergeSort (sortLe .Cpu) := by
  simp +decide [nanSortList, List.mergeSort, List.splitInTwo, List.merge, sortLe,
    ProcessBy.compare, fcmp, qcmp]

/-- Claim C9 (amended): aggregating three processes with CPUs [5, 90, 20]
and sorting by CPU descending yields [90, 20, 5]; incomparable values
(NaN) compare as equal under the CPU key (the RAM key compares `u64` and
is always total); and re-running the sort with the same key on unchanged
input is idempotent (and total, hence panic-free) PROVIDED the compared
key values are totally ordered — always for the RAM key, and for the CPU
key when no CPU value is NaN; with NaN present the ordering is
unspecified and re-sorting may reorder (see the counterexample). -/
theorem C9_sorting :
    update_processes
      [⟨"a", some 5, 1, 1⟩, ⟨"b", some 90, 2, 2⟩, ⟨"c", some 20, 3, 3⟩] .Cpu =
      [⟨"b", some 90, 2, 2⟩, ⟨"c", some 20, 3, 3⟩, ⟨"a", some 5, 1, 1⟩] ∧
    (∀ a b : ProcessInfo, a.cpu = none ∨ b.cpu = none →
      ProcessBy.Cpu.compare a b = .eq) ∧
    (∀ l : List ProcessInfo, (∀ p ∈ l, p.cpu.isSome) →
      (l.mergeSort (sortLe .Cpu)).mergeSort (sortLe .Cpu)
        = l.mergeSort (sortLe .Cpu)) ∧
    (∀ l : List ProcessInfo,
      (l.mergeSort (sortLe .Ram)).mergeSort (sortLe .Ram)
        = l.mergeSort (sortLe .Ram)) := by
  refine ⟨?_, fun a b h => compare_cpu_nan h, fun l h => mergeSort_cpu_idem h,
    mergeSort_ram_idem⟩
  simp +decide [update_processes, aggregate, insertProcess, List.find?, List.mergeSort,
    List.splitInTwo, List.merge, sortLe, ProcessBy.compare, fcmp, qcmp]

/-- Claim C9, witness: the NaN-compares-equal part at a concrete NaN
record, and idempotence at a concrete NaN-free list. -/
theorem C9_witness :
    ProcessBy.Cpu.compare ⟨"n", none, 0, 0⟩ ⟨"m", some 3, 1, 1⟩ = .eq ∧
    (([⟨"a", some 5, 1, 1⟩, ⟨"b", some 90, 2, 2⟩] : List ProcessInfo).mergeSort
        (sortLe .Cpu)).mergeSort (sortLe .Cpu) =
      ([⟨"a", some 5, 1, 1⟩, ⟨"b", some 90, 2, 2⟩] : List ProcessInfo).mergeSort
        (sortLe .Cpu) :=
  ⟨C9_sorting.2.1 _ _ (Or.inl rfl),
   C9_sorting.2.2.1 _ (by decide)⟩


/-- Write condition of `set_pixel`: the coordinates are on the canvas and
the flat index is the canvas index. -/
def writeAt (px_w px_h : ℕ) (x y : ℤ) (i : ℕ) : Prop :=
  0 ≤ x ∧ x.toNat < px_w ∧ 0 ≤ y ∧ y.toNat < px_h ∧ i = y.toNat * px_w + x.toNat

theorem set_pixel_iff (px_w px_h : ℕ) (pix : ℕ → Bool) (x y : ℤ) (i : ℕ) :
    (set_pixel px_w px_h pix x y) i = true ↔
      pix i = true ∨ writeAt px_w px_h x y i := by
  unfold set_pixel writeAt
  by_cases hg : 0 ≤ x ∧ x.toNat < px_w ∧ 0 ≤ y ∧ y.toNat < px_h
  · rw [if_pos hg]
    by_cases hi : i = y.toNat * px_w + x.toNat
    · simp [hi, hg]
    · simp [hi]
  · rw [if_neg hg]
    constructor
    · intro h
      exact Or.inl h
    · rintro (h | ⟨h1, h2, h3, h4, _⟩)
      · exact h
      · exact absurd ⟨h1, h2, h3, h4⟩ hg

theorem bresenham_self (px_w px_h : ℕ) (p : ℤ × ℤ) (pix : ℕ → Bool) :
    bresenham px_w px_h p p pix = set_pixel px_w px_h pix p.1 p.2 := by
  unfold bresenham
  simp only [sub_self, abs_zero, neg_zero, add_zero, lt_irrefl, if_false]
  rw [show ((0 : ℤ) + 1).toNat = 1 by rfl]
  unfold bresLoop
  rw [if_pos ⟨rfl, rfl⟩]

theorem bresLoop_horiz (px_w px_h : ℕ) (y d : ℤ) (hd : 1 ≤ d) :
    ∀ (n : ℕ) (x0 : ℤ) (pix : ℕ → Bool) (i : ℕ),
      (bresLoop px_w px_h (x0 + n) y 1 (-1) d 0 (n + 1) x0 y d pix) i = true ↔
        pix i = true ∨ ∃ k : ℕ, k ≤ n ∧ writeAt px_w px_h (x0 + k) y i := by
  intro n
  induction n with
  | zero =>
    intro x0 pix i
    unfold bresLoop
    rw [if_pos ⟨by ring, rfl⟩]
    rw [set_pixel_iff]
    constructor
    · rintro (h | h)
      · exact Or.inl h
      · exact Or.inr ⟨0, le_refl 0, by simpa using h⟩
    · rintro (h | ⟨k, hk, hw⟩)
      · exact Or.inl h
      · interval_cases k
        exact Or.inr (by simpa using hw)
  | succ n ih =>
    intro x0 pix i
    unfold bresLoop
    rw [if_neg (by
      rintro ⟨h1, -⟩
      omega)]
    rw [if_pos (by linarith : (0 : ℤ) ≤ 2 * d), if_neg (by linarith : ¬(2 * d ≤ d)),
      if_pos (by linarith : (0 : ℤ) ≤ 2 * d), add_zero,
      if_neg (by linarith : ¬(2 * d ≤ d))]
    rw [show (x0 + (↑(n + 1) : ℤ)) = (x0 + 1) + ↑n by push_cast; ring]
    rw [ih (x0 + 1) (set_pixel px_w px_h pix x0 y) i]
    rw [set_pixel_iff]
    constructor
    · rintro ((h | h) | ⟨k, hk, hw⟩)
      · exact Or.inl h
      · exact Or.inr ⟨0, by omega, by simpa using h⟩
      · exact Or.inr ⟨k + 1, by omega, by
          have : x0 + 1 + (k : ℤ) = x0 + ((k : ℕ) + 1 : ℕ) := by push_cast; ring
          rw [this] at hw
          exact hw⟩
    · rintro (h | ⟨k, hk, hw⟩)
      · exact Or.inl (Or.inl h)
      · cases k with
        | zero =>
          exact Or.inl (Or.inr (by simpa using hw))
        | succ k =>
          refine Or.inr ⟨k, by omega, ?_⟩
          have : x0 + 1 + (k : ℤ) = x0 + ((k + 1 : ℕ) : ℤ) := by push_cast; ring
          rw [this]
          exact hw

theorem bresenham_horiz (px_w px_h : ℕ) {x0 x1 : ℤ} (y : ℤ) (h : x0 ≤ x1)
    (pix : ℕ → Bool) (i : ℕ) :
    (bresenham px_w px_h (x0, y) (x1, y) pix) i = true ↔
      pix i = true ∨ ∃ x : ℤ, x0 ≤ x ∧ x ≤ x1 ∧ writeAt px_w px_h x y i := by
  rcases eq_or_lt_of_le h with rfl | hlt
  · rw [show ((x0, y) : ℤ × ℤ) = ((x0, y).1, (x0, y).2) from rfl, bresenham_self,
      set_pixel_iff]
    constructor
    · rintro (hp | hw)
      · exact Or.inl hp
      · exact Or.inr ⟨x0, le_refl x0, le_refl x0, hw⟩
    · rintro (hp | ⟨x, hx1, hx2, hw⟩)
      · exact Or.inl hp
      · have : x = x0 := le_antisymm hx2 hx1
        subst this
        exact Or.inr hw
  · unfold bresenham
    simp only [sub_self, abs_zero, neg_zero, add_zero, sub_zero, lt_irrefl, if_false]
    rw [show |x1 - x0| = x1 - x0 from abs_of_nonneg (by linarith), if_pos hlt]
    have hfuel : (x1 - x0 + 1).toNat = (x1 - x0).toNat + 1 := by omega
    rw [hfuel]
    have hx1eq : x1 = x0 + ((x1 - x0).toNat : ℤ) := by omega
    rw [show (bresLoop px_w px_h x1 y 1 (-1) (x1 - x0) 0 ((x1 - x0).toNat + 1) x0 y
        (x1 - x0) pix i) = (bresLoop px_w px_h (x0 + ((x1 - x0).toNat : ℤ)) y 1 (-1)
        (x1 - x0) 0 ((x1 - x0).toNat + 1) x0 y (x1 - x0) pix i) from by rw [← hx1eq]]
    rw [bresLoop_horiz px_w px_h y (x1 - x0) (by omega) ((x1 - x0).toNat) x0 pix i]
    constructor
    · rintro (hp | ⟨k, hk, hw⟩)
      · exact Or.inl hp
      · exact Or.inr ⟨x0 + k, by omega, by omega, hw⟩
    · rintro (hp | ⟨x, hxl, hxr, hw⟩)
      · exact Or.inl hp
      · refine Or.inr ⟨(x - x0).toNat, by omega, ?_⟩
        rw [show x0 + ((x - x0).toNat : ℤ) = x from by omega]
        exact hw

theorem chain_le_getLastD :
    ∀ (l : List (ℤ × ℤ)) (a : ℤ × ℤ),
      List.Chain (fun p q : ℤ × ℤ => p.1 ≤ q.1) a l → a.1 ≤ (l.getLastD a).1 := by
  intro l
  induction l with
  | nil => intro a _; exact le_refl _
  | cons p rest ih =>
    intro a hc
    rw [List.chain_cons] at hc
    rw [List.getLastD_cons]
    exact le_trans hc.1 (ih p hc.2)

theorem drawSegs_horiz (px_w px_h : ℕ) (y : ℤ) :
    ∀ (pts : List (ℤ × ℤ)) (last : ℤ × ℤ) (pix : ℕ → Bool),
      last.2 = y → (∀ p ∈ pts, p.2 = y) →
      List.Chain (fun p q : ℤ × ℤ => p.1 ≤ q.1) last pts →
      ∀ i, (drawSegs px_w px_h last pts pix) i = true ↔
        pix i = true ∨
          (pts ≠ [] ∧ ∃ x : ℤ, last.1 ≤ x ∧ x ≤ (pts.getLastD last).1 ∧
            writeAt px_w px_h x y i) := by
  intro pts
  induction pts with
  | nil =>
    intro last pix _ _ _ i
    simp [drawSegs]
  | cons p rest ih =>
    intro last pix hl hp hc i
    rw [List.chain_cons] at hc
    have hpy : p.2 = y := hp p (List.mem_cons_self p rest)
    have hrest : ∀ q ∈ rest, q.2 = y := fun q hq => hp q (List.mem_cons_of_mem p hq)
    have hple : p.1 ≤ (rest.getLastD p).1 := chain_le_getLastD rest p hc.2
    unfold drawSegs
    rw [ih p _ hpy hrest hc.2 i]
    have hb : (bresenham px_w px_h last p pix) i = true ↔
        pix i = true ∨ ∃ x : ℤ, last.1 ≤ x ∧ x ≤ p.1 ∧ writeAt px_w px_h x y i := by
      rw [show last = (last.1, y) from by rw [← hl],
        show p = (p.1, y) from by rw [← hpy]]
      exact bresenham_horiz px_w px_h y hc.1 pix i
    rw [hb, List.getLastD_cons]
    constructor
    · rintro ((hp0 | ⟨x, h1, h2, hw⟩) | ⟨hne, x, h1, h2, hw⟩)
      · exact Or.inl hp0
      · exact Or.inr ⟨List.cons_ne_nil p rest, x, h1, le_trans h2 hple, hw⟩
      · exact Or.inr ⟨List.cons_ne_nil p rest, x, le_trans hc.1 h1, h2, hw⟩
    · rintro (hp0 | ⟨_, x, h1, h2, hw⟩)
      · exact Or.inl (Or.inl hp0)
      · rcases le_total x p.1 with hxp | hxp
        · exact Or.inl (Or.inr ⟨x, h1, hxp, hw⟩)
        · cases hre : rest with
          | nil =>
            rw [hre] at h2
            simp only [List.getLastD_nil] at h2
            have : x = p.1 := le_antisymm h2 hxp
            exact Or.inl (Or.inr ⟨x, h1, le_of_eq this, hw⟩)
          | cons r rs =>
            refine Or.inr ⟨by simp [hre], x, hxp, ?_, hw⟩
            rw [← hre]
            exact h2

theorem clamp_cases (v : F32) :
    v.clamp 0 100 = F32.nan ∨ ∃ c : ℚ, v.clamp 0 100 = F32.fin c ∧ 0 ≤ c ∧ c ≤ 100 := by
  cases v with
  | fin q =>
    right
    refine ⟨if q < 0 then 0 else if 100 < q then 100 else q, rfl, ?_, ?_⟩
    · split_ifs with h1 h2
      · exact le_refl 0
      · norm_num
      · linarith
    · split_ifs with h1 h2
      · norm_num
      · exact le_refl 100
      · linarith
  | nan => exact Or.inl rfl
  | inf => exact Or.inr ⟨100, rfl, by norm_num, le_refl 100⟩
  | ninf => exact Or.inr ⟨0, rfl, le_refl 0, by norm_num⟩

theorem yCoord_fin_eval {v : F32} {c : ℚ} (hc : v.clamp 0 100 = F32.fin c)
    (_h0 : 0 ≤ c) (h100 : c ≤ 100) (pxh : ℕ) (hpx : 1 ≤ pxh) :
    yCoord v pxh = rround (((pxh : ℚ) - 1) * (1 - c / 100)) := by
  have harg : (0 : ℚ) ≤ ((pxh : ℚ) - 1) * (1 - c / 100) := by
    have h1 : (1 : ℚ) ≤ (pxh : ℚ) := by exact_mod_cast hpx
    have h2 : c / 100 ≤ 1 := by linarith
    nlinarith
  unfold yCoord
  rw [hc]
  simp only [F32.divC, F32.oneSub, F32.scale, F32.round, F32.toIsize]
  have hr0 : 0 ≤ rround (((pxh : ℚ) - 1) * (1 - c / 100)) := rround_nonneg harg
  rw [if_neg (by exact_mod_cast not_lt.mpr (by exact_mod_cast hr0))]
  rw [Int.floor_intCast]

theorem yCoord_bounds (v : F32) (pxh : ℕ) (hpx : 1 ≤ pxh) :
    0 ≤ yCoord v pxh ∧ yCoord v pxh ≤ (pxh : ℤ) - 1 := by
  rcases clamp_cases v with hnan | ⟨c, hc, h0, h100⟩
  · unfold yCoord
    rw [hnan]
    simp only [F32.divC, F32.oneSub, F32.scale, F32.round, F32.toIsize]
    constructor
    · exact le_refl 0
    · omega
  · rw [yCoord_fin_eval hc h0 h100 pxh hpx]
    have h1 : (1 : ℚ) ≤ (pxh : ℚ) := by exact_mod_cast hpx
    have harg : (0 : ℚ) ≤ ((pxh : ℚ) - 1) * (1 - c / 100) := by
      have h2 : c / 100 ≤ 1 := by linarith
      nlinarith
    refine ⟨rround_nonneg harg, rround_le harg ?_⟩
    have h2 : (0 : ℚ) ≤ c / 100 := by positivity
    push_cast
    nlinarith

theorem xCoord_nonneg (i n : ℕ) : 0 ≤ xCoord i n 56 := by
  unfold xCoord
  exact rround_nonneg (by positivity)

theorem xCoord_arg (i n : ℕ) (_h2 : 2 ≤ n) :
    (i : ℚ) * ((56 - 1 : ℕ) : ℚ) / ((n - 1 : ℕ) : ℚ) = (i : ℚ) * 55 / ((n - 1 : ℕ) : ℚ) := by
  norm_num

theorem xCoord_le (i n : ℕ) (h2 : 2 ≤ n) (hi : i < n) : xCoord i n 56 ≤ 55 := by
  unfold xCoord
  have hd : (0 : ℚ) < ((n - 1 : ℕ) : ℚ) := by
    have : 1 ≤ n - 1 := by omega
    exact_mod_cast Nat.lt_of_lt_of_le Nat.zero_lt_one this
  refine rround_le (by positivity) ?_
  rw [show ((55 : ℤ) : ℚ) = 55 by norm_num]
  rw [div_le_iff₀ hd]
  have hle : (i : ℚ) ≤ ((n - 1 : ℕ) : ℚ) := by
    have : i ≤ n - 1 := by omega
    exact_mod_cast this
  have h56 : ((56 - 1 : ℕ) : ℚ) = 55 := by norm_num
  rw [h56]
  nlinarith

theorem xCoord_zero (n : ℕ) : xCoord 0 n 56 = 0 := by
  unfold xCoord
  rw [show ((0 : ℕ) : ℚ) * ((56 - 1 : ℕ) : ℚ) / ((n - 1 : ℕ) : ℚ) = 0 by norm_num]
  rw [show (0 : ℚ) = ((0 : ℤ) : ℚ) by norm_num, rround_intCast]

theorem xCoord_last (n : ℕ) (h2 : 2 ≤ n) : xCoord (n - 1) n 56 = 55 := by
  unfold xCoord
  have hd : ((n - 1 : ℕ) : ℚ) ≠ 0 := by
    have : 1 ≤ n - 1 := by omega
    have : (1 : ℚ) ≤ ((n - 1 : ℕ) : ℚ) := by exact_mod_cast this
    linarith
  rw [show ((n - 1 : ℕ) : ℚ) * ((56 - 1 : ℕ) : ℚ) / ((n - 1 : ℕ) : ℚ)
      = ((56 - 1 : ℕ) : ℚ) by rw [mul_comm, mul_div_assoc, div_self hd, mul_one]]
  rw [show ((56 - 1 : ℕ) : ℚ) = ((55 : ℤ) : ℚ) by norm_num, rround_intCast]

theorem xCoord_mono (n : ℕ) {i j : ℕ} (hij : i ≤ j) :
    xCoord i n 56 ≤ xCoord j n 56 := by
  unfold xCoord
  apply rround_mono (by positivity)
  have : (i : ℚ) ≤ (j : ℚ) := by exact_mod_cast hij
  gcongr

theorem coords_replicate (v : F32) (N pxh : ℕ) (h2 : 2 ≤ N) :
    coords (List.replicate N v) 56 pxh =
      (List.range N).map (fun i => (xCoord i N 56, yCoord v pxh)) := by
  unfold coords
  rw [List.length_replicate]
  rw [if_neg (by omega)]
  apply List.map_congr_left
  intro i hi
  rw [List.mem_range] at hi
  rw [List.getD_eq_getElem?_getD, List.getElem?_replicate, if_pos hi, Option.getD_some]

theorem chain_range' (y : ℤ) (g : ℕ → ℤ) (hg : ∀ i j, i ≤ j → g i ≤ g j) :
    ∀ (n s : ℕ),
      List.Chain (fun p q : ℤ × ℤ => p.1 ≤ q.1) (g s, y)
        ((List.range' (s + 1) n).map (fun i => (g i, y))) := by
  intro n
  induction n with
  | zero =>
    intro s
    exact List.Chain.nil
  | succ n ih =>
    intro s
    rw [List.range'_succ, List.map_cons]
    exact List.Chain.cons (hg s (s + 1) (by omega)) (ih (s + 1))

theorem getLastD_range' (y : ℤ) (g : ℕ → ℤ) :
    ∀ (n s : ℕ),
      ((List.range' (s + 1) n).map (fun i => (g i, y))).getLastD (g s, y) = (g (s + n), y) := by
  intro n
  induction n with
  | zero =>
    intro s
    simp
  | succ n ih =>
    intro s
    rw [List.range'_succ, List.map_cons, List.getLastD_cons]
    rw [ih (s + 1), show s + 1 + n = s + (n + 1) from by omega]

theorem drawPath_replicate (v : F32) (N pxh : ℕ) (h2 : 2 ≤ N) (_hpx : 1 ≤ pxh) :
    ∀ i, (drawPath 56 pxh (coords (List.replicate N v) 56 pxh) (fun _ => false)) i = true ↔
      ∃ x : ℤ, 0 ≤ x ∧ x ≤ 55 ∧ writeAt 56 pxh x (yCoord v pxh) i := by
  intro i
  rw [coords_replicate v N pxh h2]
  obtain ⟨m, rfl⟩ : ∃ m, N = m + 2 := ⟨N - 2, by omega⟩
  rw [show m + 2 = (m + 1) + 1 from rfl, List.range_eq_range', List.range'_succ, List.map_cons]
  unfold drawPath
  have hchain := chain_range' (yCoord v pxh) (fun i => xCoord i (m + 2) 56)
    (fun i j hij => xCoord_mono (m + 2) hij) (m + 1) 0
  rw [drawSegs_horiz 56 pxh (yCoord v pxh) _ _ _ rfl
    (by
      intro p hp
      obtain ⟨j, hj, rfl⟩ := List.mem_map.mp hp
      rfl)
    (by simpa using hchain) i]
  rw [show (0 + 1) = 1 from rfl] at *
  have hlast := getLastD_range' (yCoord v pxh) (fun i => xCoord i (m + 2) 56) (m + 1) 0
  rw [set_pixel_iff]
  simp only [show ∀ j : ℕ, ((fun i => xCoord i (m + 2) 56) j, yCoord v pxh).1
      = xCoord j (m + 2) 56 from fun j => rfl]
  constructor
  · rintro ((hfalse | hw) | ⟨hne, x, hxl, hxr, hw⟩)
    · cases hfalse
    · exact ⟨xCoord 0 (m + 2) 56, xCoord_nonneg 0 (m + 2),
        by rw [xCoord_zero]; norm_num, hw⟩
    · refine ⟨x, ?_, ?_, hw⟩
      · exact le_trans (by rw [xCoord_zero]) hxl
      · have : x ≤ ((((List.range' 1 (m + 1)).map
            (fun i => (xCoord i (m + 2) 56, yCoord v pxh))).getLastD
            (xCoord 0 (m + 2) 56, yCoord v pxh)).1) := hxr
        rw [show ((List.range' 1 (m + 1)).map
            (fun i => (xCoord i (m + 2) 56, yCoord v pxh))).getLastD
            (xCoord 0 (m + 2) 56, yCoord v pxh)
            = ((fun i => xCoord i (m + 2) 56) (0 + (m + 1)), yCoord v pxh) from by
          simpa using hlast] at this
        simp only at this
        rw [show 0 + (m + 1) = (m + 2) - 1 from by omega] at this
        rw [xCoord_last (m + 2) (by omega)] at this
        exact this
  · rintro ⟨x, hx0, hx55, hw⟩
    by_cases hx : x = 0
    · subst hx
      apply Or.inl
      apply Or.inr
      rw [show (0 : ℤ) = xCoord 0 (m + 2) 56 from (xCoord_zero (m + 2)).symm] at hw
      exact hw
    · apply Or.inr
      refine ⟨by simp, x, ?_, ?_⟩
      · rw [xCoord_zero]
        omega
      · rw [show ((List.range' 1 (m + 1)).map
            (fun i => (xCoord i (m + 2) 56, yCoord v pxh))).getLastD
            (xCoord 0 (m + 2) 56, yCoord v pxh)
            = ((fun i => xCoord i (m + 2) 56) (0 + (m + 1)), yCoord v pxh) from by
          simpa using hlast]
        simp only
        rw [show 0 + (m + 1) = (m + 2) - 1 from by omega, xCoord_last (m + 2) (by omega)]
        exact ⟨hx55, hw⟩

theorem pix_read_line {pxh : ℕ} {y : ℤ} {pix : ℕ → Bool}
    (hy0 : 0 ≤ y) (hyh : y.toNat < pxh)
    (hchar : ∀ i, pix i = true ↔ ∃ x : ℤ, 0 ≤ x ∧ x ≤ 55 ∧ writeAt 56 pxh x y i)
    (a b : ℕ) (hb : b ≤ 55) : pix (a * 56 + b) = decide (a = y.toNat) := by
  cases hpx : pix (a * 56 + b) with
  | true =>
    obtain ⟨x, hx0, hx55, _, hxw, _, _, heq⟩ := (hchar (a * 56 + b)).mp hpx
    have hxn : x.toNat ≤ 55 := by omega
    have : a = y.toNat := by omega
    simp [this]
  | false =>
    by_cases ha : a = y.toNat
    · exfalso
      have : pix (a * 56 + b) = true := by
        refine (hchar (a * 56 + b)).mpr ⟨(b : ℤ), by omega, by omega, by omega, ?_, hy0, hyh, ?_⟩
        · omega
        · omega
      rw [hpx] at this
      cases this
    · simp [ha]

theorem cellBits_line {yn : ℕ} {pix : ℕ → Bool}
    (hpix : ∀ a b : ℕ, b ≤ 55 → pix (a * 56 + b) = decide (a = yn))
    (r c : ℕ) (hc : c < 28) :
    cellBits pix 56 r c =
      if r * 4 ≤ yn ∧ yn < r * 4 + 4 then lineBits (yn % 4) else 0 := by
  have h00 := hpix (r * 4 + 0) (c * 2 + 0) (by omega)
  have h01 := hpix (r * 4 + 1) (c * 2 + 0) (by omega)
  have h02 := hpix (r * 4 + 2) (c * 2 + 0) (by omega)
  have h03 := hpix (r * 4 + 3) (c * 2 + 0) (by omega)
  have h10 := hpix (r * 4 + 0) (c * 2 + 1) (by omega)
  have h11 := hpix (r * 4 + 1) (c * 2 + 1) (by omega)
  have h12 := hpix (r * 4 + 2) (c * 2 + 1) (by omega)
  have h13 := hpix (r * 4 + 3) (c * 2 + 1) (by omega)
  simp only [cellBits, show List.range 4 = [0, 1, 2, 3] from rfl,
    show List.range 2 = [0, 1] from rfl, List.foldl_cons, List.foldl_nil,
    h00, h01, h02, h03, h10, h11, h12, h13, decide_eq_true_eq]
  by_cases hy : r * 4 ≤ yn ∧ yn < r * 4 + 4
  · rw [if_pos hy]
    have hcase : yn = r * 4 + 0 ∨ yn = r * 4 + 1 ∨ yn = r * 4 + 2 ∨ yn = r * 4 + 3 := by
      omega
    rcases hcase with hv | hv | hv | hv
    · subst hv
      rw [show (r * 4 + 0) % 4 = 0 from by omega]
      simp only [add_right_inj]
      norm_num [lineBits, brailleBit]
    · subst hv
      rw [show (r * 4 + 1) % 4 = 1 from by omega]
      simp only [add_right_inj]
      norm_num [lineBits, brailleBit]
    · subst hv
      rw [show (r * 4 + 2) % 4 = 2 from by omega]
      simp only [add_right_inj]
      norm_num [lineBits, brailleBit]
    · subst hv
      rw [show (r * 4 + 3) % 4 = 3 from by omega]
      simp only [add_right_inj]
      norm_num [lineBits, brailleBit]
  · rw [if_neg hy]
    rw [if_neg (show ¬(r * 4 + 0 = yn) from by omega),
      if_neg (show ¬(r * 4 + 1 = yn) from by omega),
      if_neg (show ¬(r * 4 + 0 = yn) from by omega),
      if_neg (show ¬(r * 4 + 1 = yn) from by omega),
      if_neg (show ¬(r * 4 + 2 = yn) from by omega),
      if_neg (show ¬(r * 4 + 3 = yn) from by omega),
      if_neg (show ¬(r * 4 + 2 = yn) from by omega),
      if_neg (show ¬(r * 4 + 3 = yn) from by omega)]

theorem lineBits_ne_zero (yn : ℕ) : lineBits (yn % 4) ≠ 0 := by
  have h4 : yn % 4 < 4 := Nat.mod_lt _ (by norm_num)
  have : yn % 4 = 0 ∨ yn % 4 = 1 ∨ yn % 4 = 2 ∨ yn % 4 = 3 := by omega
  rcases this with h | h | h | h <;> rw [h] <;> decide

theorem braille_replicate (v : F32) (N R : ℕ) (h2 : 2 ≤ N) (hR : 1 ≤ R) :
    braille_graph (List.replicate N v) R =
      String.intercalate "\n" ((List.range R).map (fun r =>
        if r = (yCoord v (R * 4)).toNat / 4 then
          String.mk (List.replicate GRAPH_CHAR_WIDTH
            (Char.ofNat (0x2800 + lineBits ((yCoord v (R * 4)).toNat % 4))))
        else String.mk (List.replicate GRAPH_CHAR_WIDTH ' '))) := by
  have hyb := yCoord_bounds v (R * 4) (by omega)
  have hynlt : (yCoord v (R * 4)).toNat < R * 4 := by omega
  have hchar := drawPath_replicate v N (R * 4) h2 (by omega)
  have hpix := pix_read_line hyb.1 hynlt hchar
  unfold braille_graph
  rw [if_neg (by
    rintro (he | hz)
    · rw [List.isEmpty_replicate] at he
      simp only [decide_eq_true_eq] at he
      omega
    · omega)]
  rw [show GRAPH_CHAR_WIDTH * 2 = 56 from rfl]
  congr 1
  apply List.map_congr_left
  intro r hr
  rw [List.mem_range] at hr
  have hrow : ∀ c ∈ List.range GRAPH_CHAR_WIDTH,
      brailleChar (cellBits
        (drawPath 56 (R * 4) (coords (List.replicate N v) 56 (R * 4)) (fun _ => false))
        56 r c) =
      (if r * 4 ≤ (yCoord v (R * 4)).toNat ∧ (yCoord v (R * 4)).toNat < r * 4 + 4 then
        Char.ofNat (0x2800 + lineBits ((yCoord v (R * 4)).toNat % 4)) else ' ') := by
    intro c hc
    rw [List.mem_range] at hc
    rw [cellBits_line hpix r c (by simpa [GRAPH_CHAR_WIDTH] using hc)]
    by_cases hcond : r * 4 ≤ (yCoord v (R * 4)).toNat ∧ (yCoord v (R * 4)).toNat < r * 4 + 4
    · rw [if_pos hcond, if_pos hcond]
      unfold brailleChar
      rw [if_neg (lineBits_ne_zero _)]
    · rw [if_neg hcond, if_neg hcond]
      rfl
  rw [List.map_congr_left hrow]
  by_cases hr4 : r = (yCoord v (R * 4)).toNat / 4
  · rw [if_pos hr4]
    rw [show (fun _ : ℕ =>
        (if r * 4 ≤ (yCoord v (R * 4)).toNat ∧ (yCoord v (R * 4)).toNat < r * 4 + 4 then
          Char.ofNat (0x2800 + lineBits ((yCoord v (R * 4)).toNat % 4)) else ' '))
        = (fun _ : ℕ => Char.ofNat (0x2800 + lineBits ((yCoord v (R * 4)).toNat % 4)))
        from by
      funext x
      rw [if_pos (by omega)]]
    rw [List.map_const', List.length_range]
  · rw [if_neg hr4]
    rw [show (fun _ : ℕ =>
        (if r * 4 ≤ (yCoord v (R * 4)).toNat ∧ (yCoord v (R * 4)).toNat < r * 4 + 4 then
          Char.ofNat (0x2800 + lineBits ((yCoord v (R * 4)).toNat % 4)) else ' '))
        = (fun _ : ℕ => ' ') from by
      funext x
      rw [if_neg (by omega)]]
    rw [List.map_const', List.length_range]

theorem braille_graph_nil (R : ℕ) : braille_graph [] R = "" := by
  simp [braille_graph]

theorem braille_graph_zero_rows (data : List F32) : braille_graph data 0 = "" := by
  simp [braille_graph]

theorem coords_single (v : F32) (pxh : ℕ) :
    coords [v] 56 pxh = [(27, yCoord v pxh)] := by
  unfold coords
  rw [List.length_singleton, if_pos rfl]
  rw [show (((56 : ℕ) : ℤ) - 1) / 2 = 27 from by decide]
  rfl

theorem pix_read_dot {pxh : ℕ} {y : ℤ} (hy0 : 0 ≤ y) (hyh : y.toNat < pxh)
    (a b : ℕ) (hb : b ≤ 55) :
    (drawPath 56 pxh [(27, y)] (fun _ => false)) (a * 56 + b)
      = decide (a = y.toNat ∧ b = 27) := by
  have hdp : drawPath 56 pxh [(27, y)] (fun _ => false)
      = set_pixel 56 pxh (fun _ => false) 27 y := rfl
  rw [hdp]
  cases hpx : set_pixel 56 pxh (fun _ => false) 27 y (a * 56 + b) with
  | true =>
    rcases (set_pixel_iff 56 pxh (fun _ => false) 27 y (a * 56 + b)).mp hpx with
      hfalse | hw
    · cases hfalse
    · obtain ⟨-, -, -, -, heq⟩ := hw
      have h : a = y.toNat ∧ b = 27 := by omega
      simp [h]
  | false =>
    by_cases h : a = y.toNat ∧ b = 27
    · exfalso
      have ht : set_pixel 56 pxh (fun _ => false) 27 y (a * 56 + b) = true :=
        (set_pixel_iff 56 pxh (fun _ => false) 27 y (a * 56 + b)).mpr
          (Or.inr ⟨by norm_num, by norm_num, hy0, hyh, by omega⟩)
      rw [hpx] at ht
      cases ht
    · simp [h]

theorem cellBits_dot {yn : ℕ} {pix : ℕ → Bool}
    (hpix : ∀ a b : ℕ, b ≤ 55 → pix (a * 56 + b) = decide (a = yn ∧ b = 27))
    (r c : ℕ) (hc : c < 28) :
    cellBits pix 56 r c =
      if r * 4 ≤ yn ∧ yn < r * 4 + 4 ∧ c = 13 then brailleBit 1 (yn % 4) else 0 := by
  have h00 := hpix (r * 4 + 0) (c * 2 + 0) (by omega)
  have h01 := hpix (r * 4 + 1) (c * 2 + 0) (by omega)
  have h02 := hpix (r * 4 + 2) (c * 2 + 0) (by omega)
  have h03 := hpix (r * 4 + 3) (c * 2 + 0) (by omega)
  have h10 := hpix (r * 4 + 0) (c * 2 + 1) (by omega)
  have h11 := hpix (r * 4 + 1) (c * 2 + 1) (by omega)
  have h12 := hpix (r * 4 + 2) (c * 2 + 1) (by omega)
  have h13 := hpix (r * 4 + 3) (c * 2 + 1) (by omega)
  simp only [cellBits, show List.range 4 = [0, 1, 2, 3] from rfl,
    show List.range 2 = [0, 1] from rfl, List.foldl_cons, List.foldl_nil,
    h00, h01, h02, h03, h10, h11, h12, h13, decide_eq_true_eq]
  by_cases hy : r * 4 ≤ yn ∧ yn < r * 4 + 4 ∧ c = 13
  · rw [if_pos hy]
    obtain ⟨hy1, hy2, hc13⟩ := hy
    subst hc13
    have hcase : yn = r * 4 + 0 ∨ yn = r * 4 + 1 ∨ yn = r * 4 + 2 ∨ yn = r * 4 + 3 := by
      omega
    rcases hcase with hv | hv | hv | hv
    · subst hv
      rw [show (r * 4 + 0) % 4 = 0 from by omega]
      simp only [add_right_inj]
      norm_num [brailleBit]
    · subst hv
      rw [show (r * 4 + 1) % 4 = 1 from by omega]
      simp only [add_right_inj]
      norm_num [brailleBit]
    · subst hv
      rw [show (r * 4 + 2) % 4 = 2 from by omega]
      simp only [add_right_inj]
      norm_num [brailleBit]
    · subst hv
      rw [show (r * 4 + 3) % 4 = 3 from by omega]
      simp only [add_right_inj]
      norm_num [brailleBit]
  · rw [if_neg hy]
    rw [if_neg (show ¬(r * 4 + 0 = yn ∧ c * 2 + 0 = 27) from by omega),
      if_neg (show ¬(r * 4 + 0 = yn ∧ c * 2 + 1 = 27) from by omega),
      if_neg (show ¬(r * 4 + 1 = yn ∧ c * 2 + 0 = 27) from by omega),
      if_neg (show ¬(r * 4 + 1 = yn ∧ c * 2 + 1 = 27) from by omega),
      if_neg (show ¬(r * 4 + 2 = yn ∧ c * 2 + 0 = 27) from by omega),
      if_neg (show ¬(r * 4 + 2 = yn ∧ c * 2 + 1 = 27) from by omega),
      if_neg (show ¬(r * 4 + 3 = yn ∧ c * 2 + 0 = 27) from by omega),
      if_neg (show ¬(r * 4 + 3 = yn ∧ c * 2 + 1 = 27) from by omega)]

theorem brailleBit_one_ne_zero (yn : ℕ) : brailleBit 1 (yn % 4) ≠ 0 := by
  have h4 : yn % 4 < 4 := Nat.mod_lt _ (by norm_num)
  have : yn % 4 = 0 ∨ yn % 4 = 1 ∨ yn % 4 = 2 ∨ yn % 4 = 3 := by omega
  rcases this with h | h | h | h <;> rw [h] <;> decide

theorem braille_single (v : F32) (R : ℕ) (hR : 1 ≤ R) :
    braille_graph [v] R =
      String.intercalate "\n" ((List.range R).map (fun r =>
        if r = (yCoord v (R * 4)).toNat / 4 then
          String.mk ((List.range GRAPH_CHAR_WIDTH).map (fun c =>
            if c = 13 then
              Char.ofNat (0x2800 + brailleBit 1 ((yCoord v (R * 4)).toNat % 4))
            else ' '))
        else String.mk (List.replicate GRAPH_CHAR_WIDTH ' '))) := by
  have hyb := yCoord_bounds v (R * 4) (by omega)
  have hynlt : (yCoord v (R * 4)).toNat < R * 4 := by omega
  unfold braille_graph
  rw [if_neg (by
    rintro (he | hz)
    · simp at he
    · omega)]
  rw [show GRAPH_CHAR_WIDTH * 2 = 56 from rfl]
  rw [coords_single v (R * 4)]
  have hpix := pix_read_dot hyb.1 hynlt
  congr 1
  apply List.map_congr_left
  intro r hr
  rw [List.mem_range] at hr
  have hrow : ∀ c ∈ List.range GRAPH_CHAR_WIDTH,
      brailleChar (cellBits
        (drawPath 56 (R * 4) [(27, yCoord v (R * 4))] (fun _ => false)) 56 r c) =
      (if r * 4 ≤ (yCoord v (R * 4)).toNat ∧ (yCoord v (R * 4)).toNat < r * 4 + 4 ∧
          c = 13 then
        Char.ofNat (0x2800 + brailleBit 1 ((yCoord v (R * 4)).toNat % 4)) else ' ') := by
    intro c hc
    rw [List.mem_range] at hc
    rw [cellBits_dot hpix r c (by simpa [GRAPH_CHAR_WIDTH] using hc)]
    by_cases hcond : r * 4 ≤ (yCoord v (R * 4)).toNat ∧
        (yCoord v (R * 4)).toNat < r * 4 + 4 ∧ c = 13
    · rw [if_pos hcond, if_pos hcond]
      unfold brailleChar
      rw [if_neg (brailleBit_one_ne_zero _)]
    · rw [if_neg hcond, if_neg hcond]
      rfl
  rw [List.map_congr_left hrow]
  by_cases hr4 : r = (yCoord v (R * 4)).toNat / 4
  · rw [if_pos hr4]
    rw [show (fun c : ℕ =>
        (if r * 4 ≤ (yCoord v (R * 4)).toNat ∧ (yCoord v (R * 4)).toNat < r * 4 + 4 ∧
            c = 13 then
          Char.ofNat (0x2800 + brailleBit 1 ((yCoord v (R * 4)).toNat % 4)) else ' '))
        = (fun c : ℕ =>
          if c = 13 then
            Char.ofNat (0x2800 + brailleBit 1 ((yCoord v (R * 4)).toNat % 4))
          else ' ') from by
      funext x
      by_cases hx : x = 13
      · rw [if_pos ⟨by omega, by omega, hx⟩, if_pos hx]
      · rw [if_neg (by rintro ⟨-, -, h13⟩; exact hx h13), if_neg hx]]
  · rw [if_neg hr4]
    rw [show (fun c : ℕ =>
        (if r * 4 ≤ (yCoord v (R * 4)).toNat ∧ (yCoord v (R * 4)).toNat < r * 4 + 4 ∧
            c = 13 then
          Char.ofNat (0x2800 + brailleBit 1 ((yCoord v (R * 4)).toNat % 4)) else ' '))
        = (fun _ : ℕ => ' ') from by
      funext x
      rw [if_neg (by rintro ⟨h1, h2, -⟩; omega)]]
    rw [List.map_const', List.length_range]


theorem yCoord_fifty : yCoord (F32.fin 50) (2 * 4) = 4 := by
  rw [yCoord_fin_eval
    (show (F32.fin 50).clamp 0 100 = F32.fin 50 from by norm_num [F32.clamp])
    (by norm_num) (by norm_num) (2 * 4) (by norm_num)]
  rw [show rround ((((2 * 4 : ℕ) : ℚ) - 1) * (1 - 50 / 100)) = 4 from by norm_num [rround]]

/-- **C8**, counterexample to the original claim: a constant input with
`R = 2` rows renders two DIFFERENT rows — the flat line lies entirely in
the second character row and the first row is blank. -/
theorem C8_counterexample :
    braille_graph [F32.fin 50] 2 =
      "                            \n             ⠈              " ∧
    ("                            " : String) ≠ "             ⠈              " := by
  constructor
  · rw [braille_single (F32.fin 50) 2 (by norm_num)]
    rw [yCoord_fifty]
    decide
  · decide

theorem idx_lt {a b W H : ℕ} (ha : a < W) (hb : b < H) : b * W + a < W * H := by
  have h1 : (b + 1) * W = b * W + W := by ring
  have h2 : (b + 1) * W ≤ H * W := mul_le_mul_right' hb W
  have h3 : H * W = W * H := Nat.mul_comm H W
  omega

theorem blockIndex_lt (v : F32) : blockIndex v < BLOCK_GRAPH_GLYPHS.length := by
  have h8 : blockIndex v ≤ 8 := min_le_right _ _
  rw [show BLOCK_GRAPH_GLYPHS.length = 9 from rfl]
  omega

theorem set_pixel_discard (px_w px_h : ℕ) (pix : ℕ → Bool) (x y : ℤ)
    (h : ¬(0 ≤ x ∧ x.toNat < px_w ∧ 0 ≤ y ∧ y.toNat < px_h)) :
    set_pixel px_w px_h pix x y = pix := by
  unfold set_pixel
  rw [if_neg h]

theorem set_pixel_bounded (px_w px_h : ℕ) (pix : ℕ → Bool) (x y : ℤ) (i : ℕ)
    (hi : px_w * px_h ≤ i) : set_pixel px_w px_h pix x y i = pix i := by
  unfold set_pixel
  by_cases hg : 0 ≤ x ∧ x.toNat < px_w ∧ 0 ≤ y ∧ y.toNat < px_h
  · rw [if_pos hg]
    rw [if_neg (show i ≠ y.toNat * px_w + x.toNat from by
      obtain ⟨-, h2, -, h4⟩ := hg
      have := idx_lt h2 h4
      omega)]
  · rw [if_neg hg]

theorem cellBits_local (R r c : ℕ) (pix pix' : ℕ → Bool) (hr : r < R)
    (hc : c < GRAPH_CHAR_WIDTH)
    (h : ∀ i, i < (GRAPH_CHAR_WIDTH * 2) * (R * 4) → pix i = pix' i) :
    cellBits pix (GRAPH_CHAR_WIDTH * 2) r c = cellBits pix' (GRAPH_CHAR_WIDTH * 2) r c := by
  rw [show GRAPH_CHAR_WIDTH = 28 from rfl] at hc h ⊢
  simp only [cellBits, show List.range 4 = [0, 1, 2, 3] from rfl,
    show List.range 2 = [0, 1] from rfl, List.foldl_cons, List.foldl_nil]
  rw [h ((r * 4 + 0) * (28 * 2) + (c * 2 + 0)) (idx_lt (by omega) (by omega)),
    h ((r * 4 + 0) * (28 * 2) + (c * 2 + 1)) (idx_lt (by omega) (by omega)),
    h ((r * 4 + 1) * (28 * 2) + (c * 2 + 0)) (idx_lt (by omega) (by omega)),
    h ((r * 4 + 1) * (28 * 2) + (c * 2 + 1)) (idx_lt (by omega) (by omega)),
    h ((r * 4 + 2) * (28 * 2) + (c * 2 + 0)) (idx_lt (by omega) (by omega)),
    h ((r * 4 + 2) * (28 * 2) + (c * 2 + 1)) (idx_lt (by omega) (by omega)),
    h ((r * 4 + 3) * (28 * 2) + (c * 2 + 0)) (idx_lt (by omega) (by omega)),
    h ((r * 4 + 3) * (28 * 2) + (c * 2 + 1)) (idx_lt (by omega) (by omega))]

theorem foldl_pres {α : Type} (l : List α) (F : ℕ → α → ℕ)
    (hF : ∀ a ∈ l, ∀ b, b < 256 → F b a < 256) :
    ∀ bits, bits < 256 → l.foldl F bits < 256 := by
  induction l with
  | nil =>
    intro bits hb
    simpa using hb
  | cons x xs ih =>
    intro bits hb
    rw [List.foldl_cons]
    exact ih (fun a ha b hbb => hF a (List.mem_cons_of_mem x ha) b hbb) _
      (hF x (List.mem_cons_self x xs) bits hb)

theorem cellBits_lt (pix : ℕ → Bool) (px_w r c : ℕ) : cellBits pix px_w r c < 256 := by
  unfold cellBits
  apply foldl_pres
  · intro sy hsy bits hb
    apply foldl_pres
    · intro sx hsx b hbb
      rw [List.mem_range] at hsy hsx
      by_cases hp : pix ((r * 4 + sy) * px_w + (c * 2 + sx))
      · rw [if_pos hp]
        have hbit : brailleBit sx sy < 256 := by
          interval_cases sx <;> interval_cases sy <;> decide
        have hb8 : b < 2 ^ 8 := lt_of_lt_of_le hbb (by norm_num)
        have hbit8 : brailleBit sx sy < 2 ^ 8 := lt_of_lt_of_le hbit (by norm_num)
        exact lt_of_lt_of_le (Nat.or_lt_two_pow hb8 hbit8) (by norm_num)
      · rw [if_neg hp]
        exact hbb
    · exact hb
  · norm_num


/-- **C8** (corrected).  Degenerate inputs (empty data or zero rows) yield
the empty string, and a zero-length Bresenham segment is a single
`set_pixel` call; but a constant-value input does NOT produce `R`
identical rows: the flat line occupies exactly one character row
(index `y / 4`), all other rows are blank, and for a single sample only
one centred dot cell is lit in that row. -/
theorem C8_braille_constant :
    (∀ R, braille_graph [] R = "") ∧
    (∀ data, braille_graph data 0 = "") ∧
    (∀ (px_w px_h : ℕ) (p : ℤ × ℤ) (pix : ℕ → Bool),
      bresenham px_w px_h p p pix = set_pixel px_w px_h pix p.1 p.2) ∧
    (∀ (v : F32) (N R : ℕ), 2 ≤ N → 1 ≤ R →
      braille_graph (List.replicate N v) R =
        String.intercalate "\n" ((List.range R).map (fun r =>
          if r = (yCoord v (R * 4)).toNat / 4 then
            String.mk (List.replicate GRAPH_CHAR_WIDTH
              (Char.ofNat (0x2800 + lineBits ((yCoord v (R * 4)).toNat % 4))))
          else String.mk (List.replicate GRAPH_CHAR_WIDTH ' ')))) ∧
    (∀ (v : F32) (R : ℕ), 1 ≤ R →
      braille_graph [v] R =
        String.intercalate "\n" ((List.range R).map (fun r =>
          if r = (yCoord v (R * 4)).toNat / 4 then
            String.mk ((List.range GRAPH_CHAR_WIDTH).map (fun c =>
              if c = 13 then
                Char.ofNat (0x2800 + brailleBit 1 ((yCoord v (R * 4)).toNat % 4))
              else ' '))
          else String.mk (List.replicate GRAPH_CHAR_WIDTH ' ')))) :=
  ⟨braille_graph_nil, braille_graph_zero_rows, bresenham_self,
    braille_replicate, braille_single⟩

theorem C8_witness :
    braille_graph (List.replicate 2 (F32.fin 100)) 1 =
      String.intercalate "\n" ((List.range 1).map (fun r =>
        if r = (yCoord (F32.fin 100) (1 * 4)).toNat / 4 then
          String.mk (List.replicate GRAPH_CHAR_WIDTH
            (Char.ofNat (0x2800 + lineBits ((yCoord (F32.fin 100) (1 * 4)).toNat % 4))))
        else String.mk (List.replicate GRAPH_CHAR_WIDTH ' '))) ∧
    braille_graph [F32.fin 100] 1 =
      String.intercalate "\n" ((List.range 1).map (fun r =>
        if r = (yCoord (F32.fin 100) (1 * 4)).toNat / 4 then
          String.mk ((List.range GRAPH_CHAR_WIDTH).map (fun c =>
            if c = 13 then
              Char.ofNat (0x2800 + brailleBit 1 ((yCoord (F32.fin 100) (1 * 4)).toNat % 4))
            else ' '))
        else String.mk (List.replicate GRAPH_CHAR_WIDTH ' '))) :=
  ⟨C8_braille_constant.2.2.2.1 (F32.fin 100) 2 1 (by decide) (by decide),
    C8_braille_constant.2.2.2.2 (F32.fin 100) 1 (by decide)⟩

/-- **C10**.  Renderer totality/safety: the `block_graph` glyph index is
always below the 9-entry glyph table length; `set_pixel` leaves the
buffer unchanged for coordinates off the canvas and never touches a flat
index `≥ px_w * px_h`; and the cell-packing loops of `braille_graph` read
only indices below `width * height` (so `cellBits` is insensitive to the
buffer contents at or beyond that bound), with the resulting bit pattern
below 256, so `0x2800 + bits` is always a valid Braille scalar value. -/
theorem C10_renderer_safety :
    (∀ v : F32, blockIndex v < BLOCK_GRAPH_GLYPHS.length) ∧
    (∀ (px_w px_h : ℕ) (pix : ℕ → Bool) (x y : ℤ),
      ¬(0 ≤ x ∧ x.toNat < px_w ∧ 0 ≤ y ∧ y.toNat < px_h) →
      set_pixel px_w px_h pix x y = pix) ∧
    (∀ (px_w px_h : ℕ) (pix : ℕ → Bool) (x y : ℤ) (i : ℕ),
      px_w * px_h ≤ i → set_pixel px_w px_h pix x y i = pix i) ∧
    (∀ (R r c : ℕ) (pix pix' : ℕ → Bool), r < R → c < GRAPH_CHAR_WIDTH →
      (∀ i, i < (GRAPH_CHAR_WIDTH * 2) * (R * 4) → pix i = pix' i) →
      cellBits pix (GRAPH_CHAR_WIDTH * 2) r c = cellBits pix' (GRAPH_CHAR_WIDTH * 2) r c) ∧
    (∀ (pix : ℕ → Bool) (px_w r c : ℕ), cellBits pix px_w r c < 256) :=
  ⟨blockIndex_lt, set_pixel_discard, set_pixel_bounded,
    fun R r c pix pix' hr hc h => cellBits_local R r c pix pix' hr hc h, cellBits_lt⟩

theorem C10_witness :
    blockIndex F32.nan < BLOCK_GRAPH_GLYPHS.length ∧
    set_pixel 56 8 (fun _ => false) (-1) 3 = (fun _ : ℕ => false) ∧
    set_pixel 56 8 (fun _ => false) 3 2 448 = (fun _ : ℕ => false) 448 ∧
    cellBits (fun i => decide (i = 500)) (GRAPH_CHAR_WIDTH * 2) 1 13 =
      cellBits (fun _ => false) (GRAPH_CHAR_WIDTH * 2) 1 13 ∧
    cellBits (fun _ => true) 56 0 0 < 256 :=
  ⟨C10_renderer_safety.1 F32.nan,
    C10_renderer_safety.2.1 56 8 (fun _ => false) (-1) 3 (by decide),
    C10_renderer_safety.2.2.1 56 8 (fun _ => false) 3 2 448 (by decide),
    C10_renderer_safety.2.2.2.1 2 1 13 (fun i => decide (i = 500)) (fun _ => false)
      (by decide) (by decide)
      (by
        intro i hi
        rw [show GRAPH_CHAR_WIDTH = 28 from rfl] at hi
        simp only [decide_eq_false_iff_not]
        omega),
    C10_renderer_safety.2.2.2.2 (fun _ => true) 56 0 0⟩

end Eos
